import Mathlib

/-!
Verification development for the targeted-scraper module `scrape_sources.py`.

Python strings are modelled as lists of Unicode code points (`Str := List Char`),
pure Python functions as Lean functions on that model.  External collaborators
(the HTTP layer, BeautifulSoup DOM queries, Playwright, the optional yake/spaCy
models, `urllib.parse.urljoin`) are modelled as explicit parameters or small
documented models; everything else is translated directly from the source.
-/

set_option maxHeartbeats 1000000

abbrev Str := List Char

def str (s : String) : Str := s.data

/-- Model of Python's whitespace (`re` class `\s` on `str`, and `str.strip()`):
the ASCII whitespace control characters together with the common Unicode
whitespace code points. -/
def isPySpace (c : Char) : Bool :=
  let v := c.toNat
  (0x09 ≤ v && v ≤ 0x0D) || v = 0x20 || (0x1C ≤ v && v ≤ 0x1F) || v = 0x85 ||
  v = 0xA0 || v = 0x1680 || (0x2000 ≤ v && v ≤ 0x200A) || v = 0x2028 ||
  v = 0x2029 || v = 0x202F || v = 0x205F || v = 0x3000

/-- Model of Python's `str.lower` restricted to ASCII letters (every constant
compared against in the source is ASCII). -/
def asciiLower (c : Char) : Char :=
  if 'A' ≤ c ∧ c ≤ 'Z' then Char.ofNat (c.toNat + 32) else c

def pyLower (s : Str) : Str := s.map asciiLower

/-- `startsWithL pat s` models Python's `s.startswith(pat)`. -/
def startsWithL : Str → Str → Bool
  | [], _ => true
  | _ :: _, [] => false
  | a :: as, b :: bs => a = b && startsWithL as bs

/-- `containsSub pat s` models Python's `pat in s` (substring test). -/
def containsSub (pat : Str) : Str → Bool
  | [] => startsWithL pat []
  | c :: cs => startsWithL pat (c :: cs) || containsSub pat cs

/-- Python's `str.strip()` (no argument): drop whitespace from both ends. -/
def pyStrip (s : Str) : Str :=
  ((s.dropWhile isPySpace).reverse.dropWhile isPySpace).reverse

/-- Python's `str.strip(chars)`: drop characters of `cs` from both ends. -/
def pyStripChars (cs : List Char) (s : Str) : Str :=
  ((s.dropWhile (· ∈ cs)).reverse.dropWhile (· ∈ cs)).reverse

/-- Python's `str.rstrip("/")`. -/
def rstripSlash (s : Str) : Str :=
  (s.reverse.dropWhile (· = '/')).reverse

/-- One pass of `re.sub(r"\s+", " ", s)`: every maximal whitespace run is
replaced by a single ASCII space.  `prevWS` records whether the previous
character belonged to a whitespace run. -/
def collapseAux (prevWS : Bool) : Str → Str
  | [] => []
  | c :: cs =>
    if isPySpace c then
      if prevWS then collapseAux true cs else ' ' :: collapseAux true cs
    else c :: collapseAux false cs

/-- Proof-side shape predicate: every whitespace character is an ASCII
space. -/
def noWsExceptSpace (l : Str) : Bool := l.all (fun c => !isPySpace c || c = ' ')

/-- Proof-side shape predicate: no two adjacent ASCII spaces. -/
def noDoubleSpace : Str → Bool
  | [] => true
  | [_] => true
  | a :: b :: rest => !(decide (a = ' ') && decide (b = ' ')) && noDoubleSpace (b :: rest)

/-- `_clean_text` (scrape_sources.py:77): replace non-breaking spaces,
collapse whitespace runs to single spaces, trim both ends. -/
def cleanText (s : Str) : Str :=
  pyStrip (collapseAux false (s.map (fun c => if c = '\u00A0' then ' ' else c)))

/-- Model of Python's `str.encode("cp1252", errors="ignore")` for a single
character: the Windows-1252 byte for the code point, or `none` if the
character is not representable (then it is dropped). -/
def cp1252Byte (c : Char) : Option Nat :=
  let v := c.toNat
  if v < 0x80 then some v
  else if 0xA0 ≤ v ∧ v ≤ 0xFF then some v
  else
    match v with
    | 0x20AC => some 0x80
    | 0x0081 => some 0x81
    | 0x201A => some 0x82
    | 0x0192 => some 0x83
    | 0x201E => some 0x84
    | 0x2026 => some 0x85
    | 0x2020 => some 0x86
    | 0x2021 => some 0x87
    | 0x02C6 => some 0x88
    | 0x2030 => some 0x89
    | 0x0160 => some 0x8A
    | 0x2039 => some 0x8B
    | 0x0152 => some 0x8C
    | 0x008D => some 0x8D
    | 0x017D => some 0x8E
    | 0x008F => some 0x8F
    | 0x0090 => some 0x90
    | 0x2018 => some 0x91
    | 0x2019 => some 0x92
    | 0x201C => some 0x93
    | 0x201D => some 0x94
    | 0x2022 => some 0x95
    | 0x2013 => some 0x96
    | 0x2014 => some 0x97
    | 0x02DC => some 0x98
    | 0x2122 => some 0x99
    | 0x0161 => some 0x9A
    | 0x203A => some 0x9B
    | 0x0153 => some 0x9C
    | 0x009D => some 0x9D
    | 0x017E => some 0x9E
    | 0x0178 => some 0x9F
    | _ => none

def cp1252EncodeIgnore (s : Str) : List Nat := s.filterMap cp1252Byte

def isUtf8Cont (b : Nat) : Bool := 0x80 ≤ b && b ≤ 0xBF

/-- Model of Python's `bytes.decode("utf-8", errors="ignore")`: decode valid
sequences, silently skip the bytes of invalid ones. -/
def utf8DecodeIgnore : List Nat → List Char
  | [] => []
  | b :: bs =>
    if b < 0x80 then Char.ofNat b :: utf8DecodeIgnore bs
    else if 0xC2 ≤ b ∧ b ≤ 0xDF then
      match bs with
      | [] => []
      | b2 :: bs2 =>
        if isUtf8Cont b2 then
          Char.ofNat ((b - 0xC0) * 64 + (b2 - 0x80)) :: utf8DecodeIgnore bs2
        else utf8DecodeIgnore (b2 :: bs2)
    else if 0xE0 ≤ b ∧ b ≤ 0xEF then
      match bs with
      | [] => []
      | b2 :: bs2 =>
        let sndOk :=
          if b = 0xE0 then 0xA0 ≤ b2 && b2 ≤ 0xBF
          else if b = 0xED then 0x80 ≤ b2 && b2 ≤ 0x9F
          else isUtf8Cont b2
        if sndOk then
          match bs2 with
          | [] => []
          | b3 :: bs3 =>
            if isUtf8Cont b3 then
              Char.ofNat ((b - 0xE0) * 4096 + (b2 - 0x80) * 64 + (b3 - 0x80)) ::
                utf8DecodeIgnore bs3
            else utf8DecodeIgnore (b3 :: bs3)
        else utf8DecodeIgnore (b2 :: bs2)
    else if 0xF0 ≤ b ∧ b ≤ 0xF4 then
      match bs with
      | [] => []
      | b2 :: bs2 =>
        let sndOk :=
          if b = 0xF0 then 0x90 ≤ b2 && b2 ≤ 0xBF
          else if b = 0xF4 then 0x80 ≤ b2 && b2 ≤ 0x8F
          else isUtf8Cont b2
        if sndOk then
          match bs2 with
          | [] => []
          | b3 :: bs3 =>
            if isUtf8Cont b3 then
              match bs3 with
              | [] => []
              | b4 :: bs4 =>
                if isUtf8Cont b4 then
                  Char.ofNat ((b - 0xF0) * 262144 + (b2 - 0x80) * 4096 +
                    (b3 - 0x80) * 64 + (b4 - 0x80)) :: utf8DecodeIgnore bs4
                else utf8DecodeIgnore (b4 :: bs4)
            else utf8DecodeIgnore (b3 :: bs3)
        else utf8DecodeIgnore (b2 :: bs2)
    else utf8DecodeIgnore bs

/-- `_fix_mojibake` (scrape_sources.py:84): if the replacement character is
present, re-encode as cp1252 and re-decode as UTF-8, ignoring errors. -/
def fixMojibake (s : Str) : Str :=
  if s = [] then s
  else if '�' ∈ s then utf8DecodeIgnore (cp1252EncodeIgnore s)
  else s

/-- The normalizer of the spec (§4.1): the composition
`_fix_mojibake(_clean_text(·))` used at the call sites
(scrape_sources.py:286, 655, 754). -/
def normalizeText (s : Str) : Str := fixMojibake (cleanText s)

-- -------------------------
-- Summarization + keywords + entities (offline)
-- -------------------------

def isSentPunct (c : Char) : Bool := c = '.' || c = '!' || c = '?'

/-- Engine of `re.split(r"(?<=[.!?])\s+", text)` (`_split_sentences`,
scrape_sources.py:294): cut at each maximal whitespace run preceded by
sentence punctuation.  `prev` is the previous character (the lookbehind). -/
def splitSentAux : Str → Char → Str → List Str
  | [], _, acc => [acc.reverse]
  | c :: cs, prev, acc =>
    if isPySpace c ∧ isSentPunct prev then
      acc.reverse :: splitSentAux (cs.dropWhile isPySpace) ' ' []
    else splitSentAux cs c (c :: acc)
  termination_by s _ _ => s.length
  decreasing_by
  · exact Nat.lt_succ_of_le (List.dropWhile_suffix isPySpace).sublist.length_le
  · exact Nat.lt_succ_self cs.length

/-- `_split_sentences` (scrape_sources.py:294). -/
def splitSentences (text : Str) : List Str :=
  if text = [] then []
  else
    ((splitSentAux text ' ' []).filter
      (fun p => decide (p ≠ [] ∧ pyStrip p ≠ []))).map pyStrip

/-- The STOPWORDS set (scrape_sources.py:43). -/
def stopwords : List Str :=
  [str "the", str "a", str "an", str "and", str "or", str "but", str "if",
   str "then", str "else", str "for", str "to", str "of", str "in", str "on",
   str "at", str "by", str "from", str "with", str "without", str "this",
   str "that", str "these", str "those", str "is", str "are", str "was",
   str "were", str "be", str "been", str "being", str "as", str "it",
   str "its", str "into", str "can", str "may", str "must", str "should",
   str "will", str "would", str "could", str "about", str "over", str "under",
   str "than", str "also", str "such", str "more", str "most", str "less",
   str "very", str "not", str "no", str "yes", str "you", str "your",
   str "we", str "our", str "they", str "their", str "i", str "me",
   str "my", str "them", str "us"]

def isAsciiLetter (c : Char) : Bool := ('a' ≤ c && c ≤ 'z') || ('A' ≤ c && c ≤ 'Z')

def isKwCont (c : Char) : Bool := isAsciiLetter c || c = '-'

/-- `re.findall(r"[A-Za-z][A-Za-z\-]{2,}", ·)`: maximal letter/hyphen runs of
length ≥ 3 starting with a letter (`_basic_keywords`, scrape_sources.py:314). -/
def findKwTokens : Str → List Str
  | [] => []
  | c :: cs =>
    if isAsciiLetter c then
      let run := cs.takeWhile isKwCont
      if 2 ≤ run.length then (c :: run) :: findKwTokens (cs.dropWhile isKwCont)
      else findKwTokens cs
    else findKwTokens cs
  termination_by s => s.length
  decreasing_by
  · exact Nat.lt_succ_of_le (List.dropWhile_suffix isKwCont).sublist.length_le
  · exact Nat.lt_succ_self cs.length
  · exact Nat.lt_succ_self cs.length

/-- First-seen-order deduplication (the `seen`-set idiom used throughout the
source, and Python `dict` key order). -/
def dedupFirstAux {α : Type} [DecidableEq α] (seen : List α) : List α → List α
  | [] => []
  | x :: xs =>
    if x ∈ seen then dedupFirstAux seen xs else x :: dedupFirstAux (x :: seen) xs

def dedupFirst {α : Type} [DecidableEq α] (l : List α) : List α := dedupFirstAux [] l

/-- The frequency-fallback branch of `_basic_keywords`
(scrape_sources.py:314-321): tokenize the lowered text, drop stop words,
rank by frequency (Python's stable descending sort over dict insertion
order), truncate to `topK`. -/
def keywordFallback (text : Str) (topK : Nat) : List Str :=
  let words := findKwTokens (pyLower text)
  let filtered := words.filter (fun w => decide (w ∉ stopwords))
  let uniq := dedupFirst filtered
  (List.insertionSort (fun a b => filtered.count b ≤ filtered.count a) uniq).take topK

/-- `_basic_keywords` (scrape_sources.py:301): the optional yake extractor is
an external collaborator, modelled as an optional function computing the
whole yake branch; when absent the frequency fallback runs. -/
def basicKeywords (yakeFn : Option (Str → List Str)) (text : Str) (topK : Nat) :
    List Str :=
  if text = [] then []
  else
    match yakeFn with
    | some f => f text
    | none => keywordFallback text topK

/-- The length-proximity bonus of `_extractive_summary`
(scrape_sources.py:337): `max(0.0, 200.0 - abs(len(s) - 180.0)) / 200.0`. -/
def lengthBonus (n : Nat) : ℚ := max 0 (200 - |(n : ℚ) - 180|) / 200

/-- The per-sentence score of `_extractive_summary` (scrape_sources.py:333-337):
+2 for each distinct non-empty keyword occurring in the lowered sentence,
plus the length bonus. -/
def sentScore (keyset : List Str) (s : Str) : ℚ :=
  2 * ((keyset.filter
      (fun k => decide (k ≠ []) && containsSub k (pyLower s))).length : ℚ) +
    lengthBonus s.length

/-- Python's `" ".join(·)`. -/
def joinSpaces : List Str → Str
  | [] => []
  | [x] => x
  | x :: y :: xs => x ++ ' ' :: joinSpaces (y :: xs)

/-- The scored list of `_extractive_summary` (scrape_sources.py:330-338):
`(score, idx, sentence)` for the first 250 sentences. -/
def scoredOf (keyset : List Str) (sentences : List Str) : List (ℚ × ℕ × Str) :=
  (sentences.take 250).enum.map (fun p => (sentScore keyset p.2, p.1, p.2))

/-- The selection of `_extractive_summary` (scrape_sources.py:340-341):
stable sort by score descending, take `maxSentences`, re-sort by original
index.  Python's stable `sort` is modelled by `List.insertionSort`, which
is stable for a preorder. -/
def picksOf (keyset : List Str) (sentences : List Str) (maxSentences : Nat) :
    List (ℚ × ℕ × Str) :=
  List.insertionSort (fun a b => a.2.1 ≤ b.2.1)
    ((List.insertionSort (fun a b => b.1 ≤ a.1)
      (scoredOf keyset sentences)).take maxSentences)

/-- `_extractive_summary` (scrape_sources.py:324). -/
def extractiveSummary (text : Str) (keywords : List Str) (maxSentences : Nat) :
    Str × List Str :=
  let sentences := splitSentences text
  if sentences = [] then ([], [])
  else
    let keyset := dedupFirst (keywords.map pyLower)
    let keyPoints := (picksOf keyset sentences maxSentences).map (fun p => p.2.2)
    (pyStrip (joinSpaces (keyPoints.take 3)), keyPoints)

def isDigitA (c : Char) : Bool := '0' ≤ c && c ≤ '9'

/-- Model of the `re` word class `\w` (ASCII fragment). -/
def isWordChar (c : Char) : Bool := isAsciiLetter c || isDigitA c || c = '_'

def isUpperA (c : Char) : Bool := 'A' ≤ c && c ≤ 'Z'

def isLowerA (c : Char) : Bool := 'a' ≤ c && c ≤ 'z'

/-- One `[A-Z][a-z]+` word: the initial capital plus the maximal run of
lowercase letters; returns the word and the remaining input. -/
def capWord (cs : Str) : Option (Str × Str) :=
  match cs with
  | [] => none
  | c :: rest =>
    if isUpperA c then
      let run := rest.takeWhile isLowerA
      if run = [] then none else some (c :: run, rest.dropWhile isLowerA)
    else none

/-- Greedy `(?:\s+[A-Z][a-z]+){0,k}`: the list of matched units
(text including the leading whitespace, and the rest after the unit). -/
def capExtrasList : Nat → Str → List (Str × Str)
  | 0, _ => []
  | k + 1, cs =>
    let ws := cs.takeWhile isPySpace
    if ws = [] then []
    else
      match capWord (cs.dropWhile isPySpace) with
      | none => []
      | some (w, rest) => (ws ++ w, rest) :: capExtrasList k rest

def lastRest (r0 : Str) (units : List (Str × Str)) : Str :=
  (units.getLast?).elim r0 Prod.snd

def unitsText (units : List (Str × Str)) : Str :=
  units.foldr (fun u a => u.1 ++ a) []

/-- `true` iff a `\b` holds between a word character and the head of `cs`. -/
def boundaryOkAfter (cs : Str) : Bool :=
  match cs with
  | [] => true
  | c :: _ => !isWordChar c

/-- One attempt of `\b([A-Z][a-z]+(?:\s+[A-Z][a-z]+){0,4})\b` at the current
position (the leading `\b` is checked by the caller): greedy units, then the
trailing boundary; on failure the last unit is given back (after which the
boundary always holds, matching the regex engine's backtracking). -/
def matchCapAt (cs : Str) : Option (Str × Str) :=
  match capWord cs with
  | none => none
  | some (w0, r0) =>
    let units := capExtrasList 4 r0
    let rest := lastRest r0 units
    if boundaryOkAfter rest then some (w0 ++ unitsText units, rest)
    else
      match units with
      | [] => none
      | _ :: _ =>
        let units2 := units.dropLast
        some (w0 ++ unitsText units2, lastRest r0 units2)

/-- The scan of `re.findall` for the capitalized-sequence pattern
(`_regex_entities`, scrape_sources.py:348): leftmost, non-overlapping.
`bOk` says whether a word boundary holds before the current position; the
fuel starts at `length + 1` and dominates the step count, so it never runs
out. -/
def capSeqAux : Nat → Str → Bool → List Str
  | 0, _, _ => []
  | _ + 1, [], _ => []
  | fuel + 1, c :: cs, bOk =>
    if bOk then
      match matchCapAt (c :: cs) with
      | some (m, rest) => m :: capSeqAux fuel rest false
      | none => capSeqAux fuel cs (!isWordChar c)
    else capSeqAux fuel cs (!isWordChar c)

def capSeqFindall (text : Str) : List Str := capSeqAux (text.length + 1) text true

def orgMarkers : List Str :=
  [str "Department", str "Agency", str "Administration", str "Commission",
   str "Office", str "U.S", str "United States", str "CBP",
   str "White House", str "Federal Register"]

/-- Python string `<=`: lexicographic comparison of code points. -/
def lexLeB : Str → Str → Bool
  | [], _ => true
  | _ :: _, [] => false
  | a :: as, b :: bs =>
    if a.toNat < b.toNat then true
    else if b.toNat < a.toNat then false
    else lexLeB as bs

def lexLe (a b : Str) : Prop := lexLeB a b = true

instance : DecidableRel lexLe := fun a b =>
  inferInstanceAs (Decidable (lexLeB a b = true))

/-- Python's `sorted` on distinct strings. -/
def pySorted (l : List Str) : List Str := List.insertionSort lexLe l

structure Entities where
  orgs : List Str
  people : List Str
  locations : List Str
  other : List Str
deriving DecidableEq

def hasOrgMarker (c : Str) : Bool := orgMarkers.any (fun m => containsSub m c)

/-- `_regex_entities` (scrape_sources.py:347): candidate capitalized
sequences, length filter, 1200-candidate cap, marker bucketing, sorted
de-duplicated capped category lists. -/
def regexEntities (text : Str) : Entities :=
  let candidates := capSeqFindall text
  let candidates2 := (candidates.filter (fun c => decide (4 ≤ c.length))).map pyStrip
  let pool := candidates2.take 1200
  let orgsL := pool.filter hasOrgMarker
  let otherL := pool.filter (fun c => !hasOrgMarker c)
  { orgs := (pySorted (dedupFirst orgsL)).take 20
    people := []
    locations := []
    other := (pySorted (dedupFirst otherL)).take 25 }

-- -------------------------
-- Source detection (scrape_sources.py:421-436) and dispatch
-- -------------------------

def csmsUrlPat : Str := str "cbp.gov/trade/automated/cargo-systems-messaging-service"

def whUrlConst : Str := str "https://www.whitehouse.gov/fact-sheets"

def dlUrlConst : Str := str "https://www.cbp.gov/documents-library"

/-- `_is_cbp_csms` (scrape_sources.py:421). -/
def isCbpCsms (u : Str) : Bool := containsSub csmsUrlPat (pyLower u)

/-- `_is_whitehouse_fact_sheets` (scrape_sources.py:425). -/
def isWhitehouseFactSheets (u : Str) : Bool :=
  decide (rstripSlash (pyLower u) = whUrlConst)

/-- `_is_cbp_documents_library` (scrape_sources.py:430). -/
def isCbpDocumentsLibrary (u : Str) : Bool :=
  decide (rstripSlash (pyLower u) = dlUrlConst)

/-- `_is_federalregister_search` (scrape_sources.py:434). -/
def isFederalregisterSearch (u : Str) : Bool :=
  let l := pyLower u
  containsSub (str "federalregister.gov") l &&
    (containsSub (str "/documents/search") l || containsSub (str "document-search") l)

inductive Route
  | csms
  | factSheets
  | docLib
  | fedReg
  | generic
deriving DecidableEq

/-- The dispatch order of `scrape_one` (scrape_sources.py:642-748). -/
def scrapeRoute (u : Str) : Route :=
  if isCbpCsms u then Route.csms
  else if isWhitehouseFactSheets u then Route.factSheets
  else if isCbpDocumentsLibrary u then Route.docLib
  else if isFederalregisterSearch u then Route.fedReg
  else Route.generic

-- -------------------------
-- Link extraction (scrape_sources.py:248-270)
-- -------------------------

def isSchemeCont (c : Char) : Bool :=
  isAsciiLetter c || isDigitA c || c = '+' || c = '-' || c = '.'

def hasScheme (href : Str) : Bool :=
  match href with
  | [] => false
  | c :: rest =>
    isAsciiLetter c &&
      match rest.dropWhile isSchemeCont with
      | ':' :: _ => true
      | _ => false

def schemeAuthOf (base : Str) : Str :=
  let sch := base.takeWhile (· ≠ ':')
  let rest := base.drop (sch.length + 1)
  if startsWithL (str "//") rest then
    sch ++ str "://" ++
      (rest.drop 2).takeWhile (fun c => c ≠ '/' && c ≠ '?' && c ≠ '#')
  else sch ++ [':']

def dirOf (base : Str) : Str :=
  let cut := base.reverse.dropWhile (· ≠ '/')
  if cut = [] then base ++ ['/'] else cut.reverse

/-- Model of the external `urllib.parse.urljoin`: an absolute reference (one
carrying a scheme) is returned unchanged; network-path, absolute-path and
relative references are pasted onto the base without dot-segment
normalization. -/
def urljoinM (base href : Str) : Str :=
  if hasScheme href then href
  else if startsWithL (str "//") href then base.takeWhile (· ≠ ':') ++ ':' :: href
  else if startsWithL (str "/") href then schemeAuthOf base ++ href
  else if href = [] then base
  else dirOf base ++ href

/-- An `<a>` element as seen by `_extract_links`: its `href` attribute, if
present. -/
structure AnchorEl where
  href : Option Str
deriving DecidableEq

def skipHref (href : Str) : Bool :=
  let hl := pyLower href
  startsWithL (str "javascript:") hl || startsWithL (str "mailto:") hl ||
    startsWithL (str "#") hl

/-- The collection loop of `_extract_links` (scrape_sources.py:252-262),
including the `break` once `limit` collected links are reached (skipped
anchors bypass the break check, mirroring `continue`). -/
def extractLinksLoop (resolve : Str → Str → Str) (base : Str) (limit : Nat) :
    List AnchorEl → List Str → List Str
  | [], links => links
  | a :: rest, links =>
    let href := pyStrip (a.href.getD [])
    if href = [] || skipHref href then extractLinksLoop resolve base limit rest links
    else
      let absU := resolve base href
      let links2 := if startsWithL (str "http") absU then links ++ [absU] else links
      if limit ≤ links2.length then links2
      else extractLinksLoop resolve base limit rest links2

/-- `_extract_links` (scrape_sources.py:248): collect then de-duplicate in
first-seen order. -/
def extractLinks (resolve : Str → Str → Str) (anchors : List AnchorEl)
    (base : Str) (limit : Nat) : List Str :=
  dedupFirst (extractLinksLoop resolve base limit anchors [])

/-- Refinement reference for C5, following the spec's words (§4.3): the full
stream of kept resolved links — skip empty, `javascript:`, `mailto:` and
fragment-only hrefs, resolve against the base, keep HTTP(S) results. -/
def specKeptLinks (resolve : Str → Str → Str) (base : Str)
    (anchors : List AnchorEl) : List Str :=
  anchors.filterMap (fun a =>
    let href := pyStrip (a.href.getD [])
    if href = [] then none
    else if skipHref href then none
    else
      let absU := resolve base href
      if startsWithL (str "http") absU then some absU else none)

-- -------------------------
-- Adapters (scrape_sources.py:442-636)
-- -------------------------

abbrev Dict := List (Str × Str)

def dictGet : Dict → Str → Option Str
  | [], _ => none
  | p :: ps, k => if p.1 = k then some p.2 else dictGet ps k

def kCsmsNumber : Str := str "csms_number"

def kTitle : Str := str "title"

def kPublished : Str := str "published"

def kLink : Str := str "link"

def kDate : Str := str "date"

/-- An anchor found by a title selector: its text and `href` attribute (the
selectors require `[href]`, so the attribute is present). -/
structure AnchorInfo where
  text : Str
  href : Str
deriving DecidableEq

/-- One `div.gdw_story` block of the CSMS widget, abstracted to the two
DOM queries `_parse_cbp_csms_announcements` performs on it. -/
structure CsmsStory where
  titleAnchor : Option AnchorInfo
  pubDate : Option Str
deriving DecidableEq

/-- One attempt of `re.search(r"CSMS\s*#\s*([0-9]+)", ·, re.IGNORECASE)` at
the current position. -/
def csmsTryAt (cs : Str) : Option Str :=
  match cs with
  | c1 :: c2 :: c3 :: c4 :: rest =>
    if pyLower [c1, c2, c3, c4] = str "csms" then
      match rest.dropWhile isPySpace with
      | '#' :: r2 =>
        let ds := (r2.dropWhile isPySpace).takeWhile isDigitA
        if ds = [] then none else some ds
      | _ => none
    else none
  | _ => none

def csmsNumSearch : Str → Str
  | [] => []
  | c :: cs =>
    match csmsTryAt (c :: cs) with
    | some ds => ds
    | none => csmsNumSearch cs

/-- `_parse_cbp_csms_announcements` (scrape_sources.py:451): stories without
a title anchor are skipped; each remaining story yields one record. -/
def parseCsms (stories : List CsmsStory) : List Dict :=
  stories.filterMap (fun st =>
    match st.titleAnchor with
    | none => none
    | some a =>
      let title := cleanText a.text
      let link := cleanText a.href
      let pub := match st.pubDate with
        | some d => cleanText d
        | none => []
      some [(kCsmsNumber, csmsNumSearch title), (kTitle, title),
            (kPublished, pub), (kLink, link)])

structure FeedItem where
  date : Str
  announcement : Str
  link : Str
deriving DecidableEq

def monthNames : List Str :=
  [str "January", str "February", str "March", str "April", str "May",
   str "June", str "July", str "August", str "September", str "October",
   str "November", str "December"]

/-- One attempt of the fact-sheet date pattern
`\b(January|...|December)\s+\d{1,2},\s+\d{4}\b` at the current position,
returning the matched text. -/
def dateTryAt (cs : Str) : Option Str :=
  match monthNames.findSome?
      (fun m => if startsWithL m cs then some (m, cs.drop m.length) else none) with
  | none => none
  | some (m, r1) =>
    let ws1 := r1.takeWhile isPySpace
    if ws1 = [] then none
    else
      let r2 := r1.dropWhile isPySpace
      let ds := r2.takeWhile isDigitA
      if ds = [] || 3 ≤ ds.length then none
      else
        match r2.drop ds.length with
        | ',' :: r5 =>
          let ws2 := r5.takeWhile isPySpace
          if ws2 = [] then none
          else
            let r6 := r5.dropWhile isPySpace
            let ys := r6.takeWhile isDigitA
            if ys.length = 4 && boundaryOkAfter (r6.drop 4) then
              some (m ++ ws1 ++ ds ++ ',' :: ws2 ++ ys)
            else none
        | _ => none

def dateSearchAux : Nat → Str → Bool → Option Str
  | 0, _, _ => none
  | _ + 1, [], _ => none
  | fuel + 1, c :: cs, bOk =>
    if bOk then
      match dateTryAt (c :: cs) with
      | some d => some d
      | none => dateSearchAux fuel cs (!isWordChar c)
    else dateSearchAux fuel cs (!isWordChar c)

/-- `date_re.search` of `_parse_whitehouse_fact_sheets_search_results`
(scrape_sources.py:494). -/
def dateReSearch (txt : Str) : Option Str := dateSearchAux (txt.length + 1) txt true

/-- One `<li>` of the fact-sheets result list, abstracted to the DOM queries
performed on it (the two title-anchor selectors collapsed to one optional
result). -/
structure WhLi where
  titleAnchor : Option AnchorInfo
  timeText : Option Str
  liText : Str
deriving DecidableEq

def whBase : Str := str "https://www.whitehouse.gov/"

/-- The date recovery of the fact-sheets parser (scrape_sources.py:510-519):
the `<time>` element's cleaned text, else the date-pattern search over the
cleaned item text, else empty. -/
def whDateOf (li : WhLi) : Str :=
  let date1 := match li.timeText with
    | some t => cleanText t
    | none => []
  if date1 = [] then (dateReSearch (cleanText li.liText)).getD [] else date1

def parseWhAux (resolve : Str → Str → Str) (topN : Nat) :
    List WhLi → List FeedItem → List FeedItem
  | [], acc => acc
  | li :: rest, acc =>
    match li.titleAnchor with
    | none => parseWhAux resolve topN rest acc
    | some a =>
      let title := cleanText a.text
      let link := resolve whBase (pyStrip a.href)
      if title = [] then parseWhAux resolve topN rest acc
      else
        let date := whDateOf li
        if date = [] then parseWhAux resolve topN rest acc
        else
          let acc2 := acc ++ [⟨date, title, link⟩]
          if topN ≤ acc2.length then acc2 else parseWhAux resolve topN rest acc2

/-- `_parse_whitehouse_fact_sheets_search_results` (scrape_sources.py:489). -/
def parseWhitehouse (resolve : Str → Str → Str) (lis : List WhLi) (topN : Nat) :
    List FeedItem :=
  parseWhAux resolve topN lis []

def monthAbbrevs : List Str :=
  [str "Jan", str "Feb", str "Mar", str "Apr", str "May", str "Jun",
   str "Jul", str "Aug", str "Sep", str "Oct", str "Nov", str "Dec"]

/-- One attempt of the documents-library token pattern
`\b(?:Jan|...|Dec|\d{1,2}|\d{4})\b` at the current position. -/
def tokenTryAt (cs : Str) : Option (Str × Str) :=
  match monthAbbrevs.findSome?
      (fun m =>
        if startsWithL m cs && boundaryOkAfter (cs.drop 3) then
          some (m, cs.drop 3)
        else none) with
  | some r => some r
  | none =>
    let ds := cs.takeWhile isDigitA
    if 2 ≤ ds.length && boundaryOkAfter (cs.drop 2) then some (ds.take 2, cs.drop 2)
    else if 1 ≤ ds.length && boundaryOkAfter (cs.drop 1) then
      some (ds.take 1, cs.drop 1)
    else if 4 ≤ ds.length && boundaryOkAfter (cs.drop 4) then
      some (ds.take 4, cs.drop 4)
    else none

def tokenScanAux : Nat → Str → Bool → List Str
  | 0, _, _ => []
  | _ + 1, [], _ => []
  | fuel + 1, c :: cs, bOk =>
    if bOk then
      match tokenTryAt (c :: cs) with
      | some (t, rest) => t :: tokenScanAux fuel rest false
      | none => tokenScanAux fuel cs (!isWordChar c)
    else tokenScanAux fuel cs (!isWordChar c)

/-- The `re.findall` token scan of `_parse_cbp_documents_library_results`
(scrape_sources.py:591). -/
def dateTokens (txt : Str) : List Str := tokenScanAux (txt.length + 1) txt true

def isMonthAbbrev (t : Str) : Bool := decide (t ∈ monthAbbrevs)

def isDayTok (t : Str) : Bool :=
  (1 ≤ t.length && t.length ≤ 2) && t.all isDigitA

def isYearTok (t : Str) : Bool := t.length = 4 && t.all isDigitA

/-- The month-day-year triple scan of `_parse_cbp_documents_library_results`
(scrape_sources.py:593-596). -/
def findDateTriple : List Str → Option Str
  | a :: b :: c :: rest =>
    if isMonthAbbrev a && isDayTok b && isYearTok c then
      some (a ++ ' ' :: b ++ ' ' :: c)
    else findDateTriple (b :: c :: rest)
  | _ => none

/-- One `<li>` of the documents-library result list, abstracted to the DOM
queries performed on it. -/
structure DocLi where
  anchor : Option AnchorInfo
  liText : Str
deriving DecidableEq

def dlBase : Str := str "https://www.cbp.gov/documents-library"

def parseDlAux (resolve : Str → Str → Str) (base : Str) (topN : Nat) :
    List DocLi → List FeedItem → List FeedItem
  | [], acc => acc
  | li :: rest, acc =>
    match li.anchor with
    | none => parseDlAux resolve base topN rest acc
    | some a =>
      let title := cleanText a.text
      let link := resolve base (pyStrip a.href)
      if title = [] then parseDlAux resolve base topN rest acc
      else
        let date := (findDateTriple (dateTokens li.liText)).getD []
        if date = [] then parseDlAux resolve base topN rest acc
        else
          let acc2 := acc ++ [⟨date, title, link⟩]
          if topN ≤ acc2.length then acc2
          else parseDlAux resolve base topN rest acc2

/-- `_parse_cbp_documents_library_results` (scrape_sources.py:571). -/
def parseDocLib (resolve : Str → Str → Str) (base : Str) (lis : List DocLi)
    (topN : Nat) : List FeedItem :=
  parseDlAux resolve base topN lis []

/-- One document object of the federal-register API response
(`d.get(...)` may be absent). -/
structure FrDoc where
  title : Option Str
  publication_date : Option Str
  html_url : Option Str
deriving DecidableEq

/-- The parsing part of `_fetch_federalregister_top`
(scrape_sources.py:629-636). -/
def fedregItems (docs : List FrDoc) (topN : Nat) : List FeedItem :=
  (docs.take topN).filterMap (fun d =>
    let t := cleanText (d.title.getD [])
    let date := cleanText (d.publication_date.getD [])
    let link := cleanText (d.html_url.getD [])
    if t ≠ [] ∧ date ≠ [] then some ⟨date, t, link⟩ else none)

-- -------------------------
-- Markdown table + PageResult + scrape_one branches
-- -------------------------

/-- Python's `"\n".join(·)`. -/
def joinNl : List Str → Str
  | [] => []
  | [x] => x
  | x :: y :: xs => x ++ '\n' :: joinNl (y :: xs)

def mdRow (it : FeedItem) : Str :=
  str "| " ++ cleanText it.date ++ str " | " ++ cleanText it.announcement ++ str " |"

/-- `_as_markdown_table_date_announcement` (scrape_sources.py:409). -/
def mdTable (items : List FeedItem) : Str :=
  joinNl ([str "| Date | Announcement |", str "|---|---|"] ++ items.map mdRow)

structure PageResult where
  url : Str
  title : Str
  main_text : Str
  summary : Str
  key_points : List Str
  entities : Entities
  keywords : List Str
  extracted_links : List Str
  announcements : List Dict
deriving DecidableEq

abbrev YakeFn := Option (Str → List Str)

abbrev SpacyFn := Str → Option Entities

/-- `_spacy_entities(t) or _regex_entities(t)`: the entity stage shared by
every branch of `scrape_one`; the optional statistical model is an external
collaborator, modelled as a function that may return `none`. -/
def entityStage (spacyFn : SpacyFn) (text : Str) : Entities :=
  (spacyFn text).getD (regexEntities text)

/-- The `main_text` synthesis of the CSMS branch of `scrape_one`
(scrape_sources.py:649-655). -/
def csmsLines (announcements : List Dict) : List Str :=
  announcements.filterMap (fun a =>
    let t := pyStrip ((dictGet a kTitle).getD [])
    let d := pyStrip ((dictGet a kPublished).getD [])
    if t = [] then none
    else some (pyStripChars [' ', '—'] (t ++ str " — " ++ d)))

def csmsMainText (announcements : List Dict) : Str :=
  fixMojibake (cleanText (joinNl (csmsLines announcements)))

def csmsTitleConst : Str := str "CBP CSMS Recent Messages"

/-- The CBP-CSMS branch of `scrape_one` (scrape_sources.py:644-673), with
the fetched-and-parsed widget stories as input. -/
def scrapeOneCsms (yakeFn : YakeFn) (spacyFn : SpacyFn)
    (stories : List CsmsStory) (url : Str) : PageResult :=
  let announcements := parseCsms stories
  let main_text := csmsMainText announcements
  let keywords := basicKeywords yakeFn main_text 12
  let sk := extractiveSummary main_text keywords 6
  { url := url
    title := csmsTitleConst
    main_text := main_text
    summary := sk.1
    key_points := sk.2
    entities := entityStage spacyFn main_text
    keywords := keywords
    extracted_links := announcements.filterMap (fun a =>
      match dictGet a kLink with
      | some l => if l = [] then none else some l
      | none => none)
    announcements := announcements }

def feedAnnouncements (items : List FeedItem) : List Dict :=
  items.map (fun x => [(kDate, x.date), (kTitle, x.announcement), (kLink, x.link)])

def feedLinks (items : List FeedItem) : List Str :=
  items.filterMap (fun x => if x.link = [] then none else some x.link)

/-- The common body of the three table-driven branches of `scrape_one`
(scrape_sources.py:676-745; the three branches are line-for-line identical
up to the item source and the synthetic title). -/
def scrapeOneTable (yakeFn : YakeFn) (spacyFn : SpacyFn)
    (items : List FeedItem) (pageTitle url : Str) : PageResult :=
  let main_text := mdTable items
  let keywords := basicKeywords yakeFn main_text 12
  let sk := extractiveSummary main_text keywords 6
  { url := url
    title := pageTitle
    main_text := main_text
    summary := sk.1
    key_points := sk.2
    entities := entityStage spacyFn main_text
    keywords := keywords
    extracted_links := feedLinks items
    announcements := feedAnnouncements items }

def whTitleConst : Str := str "White House Fact Sheets — Tariff (top 5)"

def dlTitleConst : Str := str "CBP Documents Library — tariff (top 5)"

def frTitleConst : Str := str "Federal Register — Tariff Rates (top 5 newest)"

/-- The fact-sheets branch of `scrape_one` (scrape_sources.py:676-697). -/
def scrapeOneWh (yakeFn : YakeFn) (spacyFn : SpacyFn)
    (resolve : Str → Str → Str) (lis : List WhLi) (url : Str) : PageResult :=
  scrapeOneTable yakeFn spacyFn (parseWhitehouse resolve lis 5) whTitleConst url

/-- The documents-library branch of `scrape_one` (scrape_sources.py:700-721). -/
def scrapeOneDl (yakeFn : YakeFn) (spacyFn : SpacyFn)
    (resolve : Str → Str → Str) (lis : List DocLi) (url : Str) : PageResult :=
  scrapeOneTable yakeFn spacyFn (parseDocLib resolve dlBase lis 5) dlTitleConst url

/-- The federal-register branch of `scrape_one` (scrape_sources.py:724-745). -/
def scrapeOneFr (yakeFn : YakeFn) (spacyFn : SpacyFn)
    (docs : List FrDoc) (url : Str) : PageResult :=
  scrapeOneTable yakeFn spacyFn (fedregItems docs 5) frTitleConst url

-- -------------------------
-- scrape_all (scrape_sources.py:773-785)
-- -------------------------

structure ErrRec where
  url : Str
  error : Str
deriving DecidableEq

structure ScrapeOut where
  count : Nat
  results : List PageResult
  errors : List ErrRec
deriving DecidableEq

/-- The batch loop of `scrape_all`: the outcome of each `scrape_one(u)` call
(a value, or a raised exception message) is supplied by `f`. -/
def scrapeAllGo (f : Str → Except Str PageResult) :
    List Str → List PageResult → List ErrRec → List PageResult × List ErrRec
  | [], res, errs => (res, errs)
  | u :: us, res, errs =>
    match f u with
    | Except.ok r => scrapeAllGo f us (res ++ [r]) errs
    | Except.error e => scrapeAllGo f us res (errs ++ [⟨u, e⟩])

/-- `scrape_all` (scrape_sources.py:773). -/
def scrapeAll (f : Str → Except Str PageResult) (urls : List Str) : ScrapeOut :=
  let p := scrapeAllGo f urls [] []
  ⟨p.1.length, p.1, p.2⟩

-- -------------------------
-- Inputs used by witnesses and counterexamples
-- -------------------------

def okOf (f : Str → Except Str PageResult) (u : Str) : Option PageResult :=
  match f u with
  | Except.ok r => some r
  | Except.error _ => none

def errOf (f : Str → Except Str PageResult) (u : Str) : Option ErrRec :=
  match f u with
  | Except.ok _ => none
  | Except.error e => some ⟨u, e⟩

def emptyEntities : Entities := ⟨[], [], [], []⟩

def prStub : PageResult := ⟨[], [], [], [], [], emptyEntities, [], [], []⟩

def fStub : Str → Except Str PageResult := fun u =>
  if u = str "u2" then Except.error (str "boom") else Except.ok prStub

def spacyStub : SpacyFn := fun _ => some ⟨[str "Zeta"], [str "Bob"], [], []⟩

def csmsDoc0 : List CsmsStory :=
  [⟨some ⟨str "Hello World", str "/x"⟩, some (str "Jan 1")⟩]

def overlapUrl : Str :=
  str "https://www.federalregister.gov/documents/search?ref=cbp.gov/trade/automated/cargo-systems-messaging-service"

def whDoc0 : List WhLi :=
  [⟨some ⟨str "T", str "/x"⟩, some (str "May 1, 2025"), str ""⟩]

def whRec0 : Dict :=
  [(kDate, str "May 1, 2025"), (kTitle, str "T"),
   (kLink, str "https://www.whitehouse.gov/x")]

def csmsEmptyDoc : List CsmsStory := [⟨some ⟨[], str "x"⟩, none⟩]

-- -------------------------
-- Helper lemmas
-- -------------------------

open List

theorem startsWithL_iff (pat s : Str) :
    startsWithL pat s = true ↔ ∃ r, s = pat ++ r := by
  induction pat generalizing s with
  | nil => simp [startsWithL]
  | cons a as ih =>
    cases s with
    | nil => simp [startsWithL]
    | cons b bs =>
      simp only [startsWithL, Bool.and_eq_true, decide_eq_true_eq, ih]
      constructor
      · rintro ⟨rfl, r, rfl⟩; exact ⟨r, rfl⟩
      · rintro ⟨r, h⟩
        cases h
        exact ⟨rfl, r, rfl⟩

theorem containsSub_iff (pat s : Str) :
    containsSub pat s = true ↔ ∃ a b, s = a ++ pat ++ b := by
  induction s with
  | nil =>
    simp only [containsSub, startsWithL_iff]
    constructor
    · rintro ⟨r, h⟩
      exact ⟨[], r, by simpa using h⟩
    · rintro ⟨a, b, h⟩
      cases a with
      | nil => exact ⟨b, by simpa using h⟩
      | cons x xs => simp at h
  | cons c cs ih =>
    simp only [containsSub, Bool.or_eq_true, startsWithL_iff, ih]
    constructor
    · rintro (⟨r, h⟩ | ⟨a, b, h⟩)
      · exact ⟨[], r, by simpa using h⟩
      · exact ⟨c :: a, b, by simp [h]⟩
    · rintro ⟨a, b, h⟩
      cases a with
      | nil => exact Or.inl ⟨b, by simpa using h⟩
      | cons x xs =>
        simp only [List.cons_append, List.cons.injEq] at h
        exact Or.inr ⟨xs, b, h.2⟩

theorem mem_of_containsSub {pat s : Str} (h : containsSub pat s = true)
    {c : Char} (hc : c ∈ pat) : c ∈ s := by
  obtain ⟨a, b, rfl⟩ := (containsSub_iff pat s).1 h
  simp [hc]


theorem scrapeAllGo_eq (f : Str → Except Str PageResult) :
    ∀ (urls : List Str) (res : List PageResult) (errs : List ErrRec),
      scrapeAllGo f urls res errs =
        (res ++ urls.filterMap (okOf f), errs ++ urls.filterMap (errOf f)) := by
  intro urls
  induction urls with
  | nil => intro res errs; simp [scrapeAllGo]
  | cons u us ih =>
    intro res errs
    cases h : f u with
    | ok r => simp [scrapeAllGo, h, okOf, errOf, ih, List.filterMap_cons]
    | error e => simp [scrapeAllGo, h, okOf, errOf, ih, List.filterMap_cons]

theorem ok_err_length (f : Str → Except Str PageResult) :
    ∀ urls : List Str,
      (urls.filterMap (okOf f)).length + (urls.filterMap (errOf f)).length =
        urls.length := by
  intro urls
  induction urls with
  | nil => simp
  | cons u us ih =>
    cases h : f u with
    | ok r => simp [List.filterMap_cons, okOf, errOf, h]; omega
    | error e => simp [List.filterMap_cons, okOf, errOf, h]; omega

/-- C9: the dict returned by `scrape_all` satisfies `count == len(results)`
and `len(results) + len(errors) == len(urls)`: each URL contributes exactly
one entry, to `results` or to `errors`. -/
theorem scrapeAll_counts (f : Str → Except Str PageResult) (urls : List Str) :
    (scrapeAll f urls).count = (scrapeAll f urls).results.length ∧
    (scrapeAll f urls).results.length + (scrapeAll f urls).errors.length =
      urls.length := by
  refine ⟨rfl, ?_⟩
  show (scrapeAllGo f urls [] []).1.length + (scrapeAllGo f urls [] []).2.length = _
  rw [scrapeAllGo_eq]
  simpa using ok_err_length f urls

/-- C2: `scrape_all` is total in the model and isolates per-URL failures:
the successes are exactly the `ok` outcomes in order, the errors are exactly
the failing URLs paired with their messages, `count` is the number of
successes; in particular, for three URLs of which only the second fails, the
result is `count = 2`, two results, and a single error naming the second
URL. -/
theorem scrapeAll_batch_isolation (f : Str → Except Str PageResult)
    (urls : List Str) :
    (scrapeAll f urls).results = urls.filterMap (okOf f) ∧
    (scrapeAll f urls).errors = urls.filterMap (errOf f) ∧
    (scrapeAll f urls).count = (urls.filterMap (okOf f)).length ∧
    (∀ u1 u2 u3 r1 r3 e2, f u1 = Except.ok r1 → f u2 = Except.error e2 →
      f u3 = Except.ok r3 →
      scrapeAll f [u1, u2, u3] = ⟨2, [r1, r3], [⟨u2, e2⟩]⟩) := by
  refine ⟨?_, ?_, ?_, ?_⟩
  · show (scrapeAllGo f urls [] []).1 = _
    rw [scrapeAllGo_eq]; simp
  · show (scrapeAllGo f urls [] []).2 = _
    rw [scrapeAllGo_eq]; simp
  · show (scrapeAllGo f urls [] []).1.length = _
    rw [scrapeAllGo_eq]; simp
  · intro u1 u2 u3 r1 r3 e2 h1 h2 h3
    show (let p := scrapeAllGo f [u1, u2, u3] [] []; (⟨p.1.length, p.1, p.2⟩ : ScrapeOut)) = _
    rw [scrapeAllGo_eq]
    simp [List.filterMap_cons, okOf, errOf, h1, h2, h3]

theorem scrapeAll_batch_isolation_witness :
    scrapeAll fStub [str "u1", str "u2", str "u3"] =
      ⟨2, [prStub, prStub], [⟨str "u2", str "boom"⟩]⟩ :=
  (scrapeAll_batch_isolation fStub []).2.2.2 (str "u1") (str "u2") (str "u3")
    prStub prStub (str "boom") (by rfl) (by rfl) (by rfl)

theorem lexLeB_total : ∀ a b : Str, lexLeB a b = true ∨ lexLeB b a = true := by
  intro a
  induction a with
  | nil => intro b; left; rfl
  | cons x xs ih =>
    intro b
    cases b with
    | nil => right; rfl
    | cons y ys =>
      by_cases h1 : x.toNat < y.toNat
      · left; simp [lexLeB, h1]
      · by_cases h2 : y.toNat < x.toNat
        · right; simp [lexLeB, h1, h2]
        · rcases ih ys with h | h
          · left; simp [lexLeB, h1, h2, h]
          · right; simp [lexLeB, h1, h2, h]

theorem lexLeB_trans :
    ∀ a b c : Str, lexLeB a b = true → lexLeB b c = true → lexLeB a c = true := by
  intro a
  induction a with
  | nil => intro b c _ _; rfl
  | cons x xs ih =>
    intro b c hab hbc
    cases b with
    | nil => simp [lexLeB] at hab
    | cons y ys =>
      cases c with
      | nil => simp [lexLeB] at hbc
      | cons z zs =>
        simp only [lexLeB] at hab hbc ⊢
        by_cases hxy : x.toNat < y.toNat
        · by_cases hyz : y.toNat < z.toNat
          · have : x.toNat < z.toNat := Nat.lt_trans hxy hyz
            simp [this]
          · by_cases hzy : z.toNat < y.toNat
            · simp [hyz, hzy] at hbc
            · have hyzeq : y.toNat = z.toNat := Nat.le_antisymm (Nat.le_of_not_lt hzy) (Nat.le_of_not_lt hyz)
              have : x.toNat < z.toNat := hyzeq ▸ hxy
              simp [this]
        · by_cases hyx : y.toNat < x.toNat
          · simp [hxy, hyx] at hab
          · have hxyeq : x.toNat = y.toNat := Nat.le_antisymm (Nat.le_of_not_lt hyx) (Nat.le_of_not_lt hxy)
            simp only [hxy, if_false, hyx, if_false] at hab
            by_cases hyz : y.toNat < z.toNat
            · have : x.toNat < z.toNat := hxyeq ▸ hyz
              simp [this]
            · by_cases hzy : z.toNat < y.toNat
              · simp [hyz, hzy] at hbc
              · simp only [hyz, if_false, hzy, if_false] at hbc
                have h1 : ¬ x.toNat < z.toNat := by omega
                have h2 : ¬ z.toNat < x.toNat := by omega
                simp [h1, h2, ih ys zs hab hbc]

theorem dedupFirstAux_not_mem_seen {α : Type} [DecidableEq α] :
    ∀ (l seen : List α) (x : α), x ∈ dedupFirstAux seen l → x ∉ seen := by
  intro l
  induction l with
  | nil => intro seen x h; simp [dedupFirstAux] at h
  | cons a as ih =>
    intro seen x h
    by_cases ha : a ∈ seen
    · simp only [dedupFirstAux, if_pos ha] at h
      exact ih seen x h
    · simp only [dedupFirstAux, if_neg ha, List.mem_cons] at h
      rcases h with rfl | h
      · exact ha
      · have := ih (a :: seen) x h
        intro hx; exact this (List.mem_cons_of_mem a hx)

theorem dedupFirstAux_nodup {α : Type} [DecidableEq α] :
    ∀ (l seen : List α), (dedupFirstAux seen l).Nodup := by
  intro l
  induction l with
  | nil => intro seen; simp [dedupFirstAux]
  | cons a as ih =>
    intro seen
    by_cases ha : a ∈ seen
    · simpa [dedupFirstAux, if_pos ha] using ih seen
    · simp only [dedupFirstAux, if_neg ha]
      refine List.nodup_cons.2 ⟨?_, ih (a :: seen)⟩
      intro hmem
      exact dedupFirstAux_not_mem_seen as (a :: seen) a hmem (List.mem_cons_self a seen)

theorem dedupFirst_nodup {α : Type} [DecidableEq α] (l : List α) :
    (dedupFirst l).Nodup := dedupFirstAux_nodup l []

theorem dedupFirstAux_sublist {α : Type} [DecidableEq α] :
    ∀ (l seen : List α), dedupFirstAux seen l <+ l := by
  intro l
  induction l with
  | nil => intro seen; simp [dedupFirstAux]
  | cons a as ih =>
    intro seen
    by_cases ha : a ∈ seen
    · simp only [dedupFirstAux, if_pos ha]
      exact (ih seen).trans (List.sublist_cons_self a as)
    · simp only [dedupFirstAux, if_neg ha]
      exact List.Sublist.cons₂ a (ih (a :: seen))

theorem dedupFirst_sublist {α : Type} [DecidableEq α] (l : List α) :
    dedupFirst l <+ l := dedupFirstAux_sublist l []

theorem pySorted_dedup_pairwise (l : List Str) :
    List.Pairwise (fun a b => lexLe a b ∧ a ≠ b) (pySorted (dedupFirst l)) := by
  haveI : IsTotal Str lexLe := ⟨lexLeB_total⟩
  haveI : IsTrans Str lexLe := ⟨fun a b c => lexLeB_trans a b c⟩
  have hs : (pySorted (dedupFirst l)).Sorted lexLe :=
    List.sorted_insertionSort lexLe (dedupFirst l)
  have hn : (pySorted (dedupFirst l)).Nodup :=
    ((List.perm_insertionSort lexLe (dedupFirst l)).nodup_iff).2 (dedupFirst_nodup l)
  exact List.Pairwise.and hs hn

/-- C10: every category produced by the regex entity fallback is
duplicate-free and sorted in strictly ascending lexicographic order, `orgs`
is capped at 20 entries, `other` at 25, and `people` and `locations` are
always empty. -/
theorem regexEntities_spec (text : Str) :
    (regexEntities text).people = [] ∧
    (regexEntities text).locations = [] ∧
    (regexEntities text).orgs.length ≤ 20 ∧
    (regexEntities text).other.length ≤ 25 ∧
    List.Pairwise (fun a b => lexLe a b ∧ a ≠ b) (regexEntities text).orgs ∧
    List.Pairwise (fun a b => lexLe a b ∧ a ≠ b) (regexEntities text).other := by
  refine ⟨rfl, rfl, ?_, ?_, ?_, ?_⟩
  · simp [regexEntities]
  · simp [regexEntities]
  · exact (pySorted_dedup_pairwise _).sublist (List.take_sublist 20 _)
  · exact (pySorted_dedup_pairwise _).sublist (List.take_sublist 25 _)

/-- C4 (amended): the length-proximity bonus used by `_extractive_summary`
equals `max(0, 200 - |len - 180|)/200`: it is `1` at length 180, `0` for
every length ≥ 380, and decays linearly on both sides, but towards short
sentences the decay is truncated at length 0, where the bonus is `1/10`,
not `0`; moreover sentences produced by `_split_sentences` are never
empty, so a length-0 sentence never reaches the scorer. -/
theorem lengthBonus_piecewise (n : Nat) :
    (380 ≤ n → lengthBonus n = 0) ∧
    (n ≤ 180 → lengthBonus n = (20 + (n : ℚ)) / 200) ∧
    (180 ≤ n → n ≤ 380 → lengthBonus n = (380 - (n : ℚ)) / 200) ∧
    (∀ (text : Str), ∀ s ∈ splitSentences text, s ≠ []) := by
  refine ⟨?_, ?_, ?_, ?_⟩
  · intro h
    have h' : (380 : ℚ) ≤ (n : ℚ) := by exact_mod_cast h
    have habs : |(n : ℚ) - 180| = (n : ℚ) - 180 := abs_of_nonneg (by linarith)
    have : (200 : ℚ) - |(n : ℚ) - 180| ≤ 0 := by rw [habs]; linarith
    simp only [lengthBonus]
    rw [max_eq_left this, zero_div]
  · intro h
    have h' : (n : ℚ) ≤ 180 := by exact_mod_cast h
    have habs : |(n : ℚ) - 180| = 180 - (n : ℚ) := by
      rw [abs_of_nonpos (by linarith)]; ring
    have hn0 : (0 : ℚ) ≤ (n : ℚ) := by positivity
    simp only [lengthBonus]
    rw [habs, max_eq_right (by linarith)]
    ring_nf
  · intro h1 h2
    have h1' : (180 : ℚ) ≤ (n : ℚ) := by exact_mod_cast h1
    have h2' : (n : ℚ) ≤ 380 := by exact_mod_cast h2
    have habs : |(n : ℚ) - 180| = (n : ℚ) - 180 := abs_of_nonneg (by linarith)
    simp only [lengthBonus]
    rw [habs, max_eq_right (by linarith)]
    ring_nf
  · intro text s hs
    simp only [splitSentences] at hs
    split at hs
    · simp at hs
    · simp only [List.mem_map, List.mem_filter, decide_eq_true_eq] at hs
      obtain ⟨p, ⟨_, _, hp2⟩, rfl⟩ := hs
      exact hp2

theorem lengthBonus_piecewise_witness :
    lengthBonus 400 = 0 ∧ lengthBonus 100 = (20 + (100 : ℚ)) / 200 ∧
    lengthBonus 200 = (380 - (200 : ℚ)) / 200 ∧
    str "Hi. Yo." ≠ [] := by
  refine ⟨(lengthBonus_piecewise 400).1 (by norm_num),
    (lengthBonus_piecewise 100).2.1 (by norm_num),
    (lengthBonus_piecewise 200).2.2.1 (by norm_num) (by norm_num), by decide⟩

/-- C4, counterexample to the claim as stated: at sentence length 0 the
length-proximity bonus of `_extractive_summary` is `1/10`, not `0`. -/
theorem lengthBonus_zero_counterexample :
    lengthBonus 0 ≠ 0 ∧ lengthBonus 0 = 1 / 10 := by
  have h : lengthBonus 0 = 1 / 10 := by
    simp only [lengthBonus]
    rw [show ((0 : Nat) : ℚ) - 180 = -180 by norm_num, abs_of_nonpos (by norm_num)]
    norm_num
  exact ⟨by rw [h]; norm_num, h⟩

/-- C3 (amended): all four adapter branches of `scrape_one` run the shared
entity stage `_spacy_entities(main_text) or _regex_entities(main_text)` on
their synthetic main text: the regex fallback is used exactly when the
statistical model is unavailable or returns nothing, and when the model is
available its output is used — also for adapter-sourced text. -/
theorem entity_stage_dispatch (y : YakeFn) (stories : List CsmsStory)
    (lis : List WhLi) (dls : List DocLi) (docs : List FrDoc)
    (resolve : Str → Str → Str) (url : Str) (E : Entities) :
    ((scrapeOneCsms y (fun _ => none) stories url).entities =
      regexEntities (scrapeOneCsms y (fun _ => none) stories url).main_text) ∧
    (scrapeOneCsms y (fun _ => some E) stories url).entities = E ∧
    ((scrapeOneWh y (fun _ => none) resolve lis url).entities =
      regexEntities (scrapeOneWh y (fun _ => none) resolve lis url).main_text) ∧
    (scrapeOneWh y (fun _ => some E) resolve lis url).entities = E ∧
    ((scrapeOneDl y (fun _ => none) resolve dls url).entities =
      regexEntities (scrapeOneDl y (fun _ => none) resolve dls url).main_text) ∧
    (scrapeOneDl y (fun _ => some E) resolve dls url).entities = E ∧
    ((scrapeOneFr y (fun _ => none) docs url).entities =
      regexEntities (scrapeOneFr y (fun _ => none) docs url).main_text) ∧
    (scrapeOneFr y (fun _ => some E) docs url).entities = E :=
  ⟨rfl, rfl, rfl, rfl, rfl, rfl, rfl, rfl⟩

/-- C3, counterexample to the claim as stated: with an available entity
model, the CSMS branch of `scrape_one` returns the model's output on its
adapter-sourced main text, not the regex fallback. -/
theorem entity_model_used_counterexample :
    (scrapeOneCsms none spacyStub csmsDoc0 (str "u")).entities ≠
      regexEntities (scrapeOneCsms none spacyStub csmsDoc0 (str "u")).main_text ∧
    (scrapeOneCsms none spacyStub csmsDoc0 (str "u")).entities =
      ⟨[str "Zeta"], [str "Bob"], [], []⟩ := by
  refine ⟨?_, rfl⟩
  intro h
  have hp := congrArg Entities.people h
  have h1 : (scrapeOneCsms none spacyStub csmsDoc0 (str "u")).entities.people =
      [str "Bob"] := rfl
  have h2 : (regexEntities
      (scrapeOneCsms none spacyStub csmsDoc0 (str "u")).main_text).people = [] := rfl
  rw [h1, h2] at hp
  simp at hp

theorem containsSub_nil (zs : Str) : containsSub [] zs = true := by
  cases zs <;> simp [containsSub, startsWithL]

theorem containsSub_trans {a b c : Str} (h1 : containsSub a b = true)
    (h2 : containsSub b c = true) : containsSub a c = true := by
  obtain ⟨x, y, rfl⟩ := (containsSub_iff a b).1 h1
  obtain ⟨p, q, hpq⟩ := (containsSub_iff _ c).1 h2
  refine (containsSub_iff a c).2 ⟨p ++ x, y ++ q, ?_⟩
  rw [hpq]; simp

theorem rstripSlash_decomp (s : Str) :
    ∃ k, s = rstripSlash s ++ List.replicate k '/' := by
  refine ⟨(s.reverse.takeWhile (fun c => decide (c = '/'))).length, ?_⟩
  have hsplit : s.reverse.takeWhile (fun c => decide (c = '/')) ++
      s.reverse.dropWhile (fun c => decide (c = '/')) = s.reverse :=
    List.takeWhile_append_dropWhile (fun c => decide (c = '/')) s.reverse
  have hrep : s.reverse.takeWhile (fun c => decide (c = '/')) =
      List.replicate (s.reverse.takeWhile (fun c => decide (c = '/'))).length '/' := by
    apply List.eq_replicate_of_mem
    intro b hb
    simpa using List.mem_takeWhile_imp hb
  calc s = s.reverse.reverse := s.reverse_reverse.symm
    _ = (s.reverse.takeWhile (fun c => decide (c = '/')) ++
          s.reverse.dropWhile (fun c => decide (c = '/'))).reverse := by rw [hsplit]
    _ = (s.reverse.dropWhile (fun c => decide (c = '/'))).reverse ++
          (s.reverse.takeWhile (fun c => decide (c = '/'))).reverse := by
        rw [List.reverse_append]
    _ = rstripSlash s ++
          List.replicate (s.reverse.takeWhile (fun c => decide (c = '/'))).length '/' := by
        rw [rstripSlash]
        congr 1
        rw [hrep, List.reverse_replicate, List.length_replicate]

theorem containsSub_of_append_last {t zs : Str} {c : Char} (hc : c ∉ t)
    (h : containsSub t (zs ++ [c]) = true) : containsSub t zs = true := by
  obtain ⟨x, y, hxy⟩ := (containsSub_iff _ _).1 h
  rcases List.eq_nil_or_concat y with rfl | ⟨y2, a, rfl⟩
  · rcases List.eq_nil_or_concat t with rfl | ⟨t2, b, rfl⟩
    · exact containsSub_nil zs
    · simp only [List.concat_eq_append] at hc hxy
      have hxy2 : zs ++ [c] = (x ++ t2) ++ [b] := by
        rw [hxy]; simp
      obtain ⟨_, hcb⟩ := List.append_inj' hxy2 rfl
      have hcb2 : c = b := by simpa using hcb
      exact absurd (by simp [hcb2] : c ∈ t2 ++ [b]) hc
  · simp only [List.concat_eq_append] at hxy
    have hxy2 : zs ++ [c] = (x ++ t ++ y2) ++ [a] := by
      rw [hxy]; simp
    obtain ⟨hz, _⟩ := List.append_inj' hxy2 rfl
    exact (containsSub_iff t zs).2 ⟨x, y2, by simpa using hz⟩

theorem containsSub_of_append_replicate {t w : Str} {c : Char} (hc : c ∉ t) :
    ∀ k, containsSub t (w ++ List.replicate k c) = true → containsSub t w = true := by
  intro k
  induction k with
  | zero => intro h; simpa using h
  | succ n ih =>
    intro h
    rw [List.replicate_succ', ← List.append_assoc] at h
    exact ih (containsSub_of_append_last hc h)

theorem eq_and_contains_absurd (ch : Char) (pat : Str) {u w : Str}
    (hch : ch ∈ pat) (hw : ch ∉ w) (hslash : ch ≠ '/')
    (heq : rstripSlash (pyLower u) = w)
    (hcon : containsSub pat (pyLower u) = true) : False := by
  obtain ⟨k, hk⟩ := rstripSlash_decomp (pyLower u)
  rw [heq] at hk
  have hmem : ch ∈ pyLower u := mem_of_containsSub hcon hch
  rw [hk] at hmem
  rcases List.mem_append.1 hmem with h | h
  · exact hw h
  · exact hslash (List.eq_of_mem_replicate h)

/-- C6 (amended): among the four URL-detection predicates, every pair is
mutually exclusive except `_is_cbp_csms` together with
`_is_federalregister_search`, which a crafted URL can satisfy
simultaneously; the dispatcher resolves that overlap by evaluating the CSMS
predicate first, and a URL matching no predicate takes the Generic path. -/
theorem adapter_predicates_disjoint (u : Str) :
    (isWhitehouseFactSheets u && isCbpCsms u) = false ∧
    (isWhitehouseFactSheets u && isCbpDocumentsLibrary u) = false ∧
    (isWhitehouseFactSheets u && isFederalregisterSearch u) = false ∧
    (isCbpDocumentsLibrary u && isCbpCsms u) = false ∧
    (isCbpDocumentsLibrary u && isFederalregisterSearch u) = false ∧
    (scrapeRoute u = Route.generic ↔
      (isCbpCsms u || isWhitehouseFactSheets u || isCbpDocumentsLibrary u ||
        isFederalregisterSearch u) = false) := by
  have hwh : isWhitehouseFactSheets u = true → rstripSlash (pyLower u) = whUrlConst := by
    intro h; simpa [isWhitehouseFactSheets] using h
  have hdl : isCbpDocumentsLibrary u = true → rstripSlash (pyLower u) = dlUrlConst := by
    intro h; simpa [isCbpDocumentsLibrary] using h
  refine ⟨?_, ?_, ?_, ?_, ?_, ?_⟩
  · cases h1 : isWhitehouseFactSheets u
    · simp
    · cases h2 : isCbpCsms u
      · simp
      · exact (eq_and_contains_absurd 'b' csmsUrlPat
          (by decide) (by decide) (by decide) (hwh h1) h2).elim
  · cases h1 : isWhitehouseFactSheets u
    · simp
    · cases h2 : isCbpDocumentsLibrary u
      · simp
      · have : whUrlConst = dlUrlConst := by rw [← hwh h1, ← hdl h2]
        exact absurd this (by decide)
  · cases h1 : isWhitehouseFactSheets u
    · simp
    · cases h2 : isFederalregisterSearch u
      · simp
      · have hcon : containsSub (str "federalregister.gov") (pyLower u) = true := by
          have := h2
          simp only [isFederalregisterSearch, Bool.and_eq_true] at this
          exact this.1
        exact (eq_and_contains_absurd 'l'
          (str "federalregister.gov") (by decide) (by decide) (by decide)
          (hwh h1) hcon).elim
  · cases h1 : isCbpDocumentsLibrary u
    · simp
    · cases h2 : isCbpCsms u
      · simp
      · have hade : containsSub (str "ade") (pyLower u) = true :=
          containsSub_trans (by decide) h2
        obtain ⟨k, hk⟩ := rstripSlash_decomp (pyLower u)
        rw [hdl h1] at hk
        rw [hk] at hade
        have : containsSub (str "ade") dlUrlConst = true :=
          containsSub_of_append_replicate (by decide) k hade
        exact absurd this (by decide)
  · cases h1 : isCbpDocumentsLibrary u
    · simp
    · cases h2 : isFederalregisterSearch u
      · simp
      · have hcon : containsSub (str "federalregister.gov") (pyLower u) = true := by
          have := h2
          simp only [isFederalregisterSearch, Bool.and_eq_true] at this
          exact this.1
        exact (eq_and_contains_absurd 'f'
          (str "federalregister.gov") (by decide) (by decide) (by decide)
          (hdl h1) hcon).elim
  · cases h1 : isCbpCsms u <;> cases h2 : isWhitehouseFactSheets u <;>
      cases h3 : isCbpDocumentsLibrary u <;> cases h4 : isFederalregisterSearch u <;>
      simp [scrapeRoute, h1, h2, h3, h4]

/-- C6, counterexample to the claim as stated: a URL satisfying both
`_is_cbp_csms` (a substring test) and `_is_federalregister_search`, so "at
most one of the four predicates holds" fails. -/
theorem adapter_predicates_overlap_counterexample :
    isCbpCsms overlapUrl = true ∧ isFederalregisterSearch overlapUrl = true := by
  constructor <;> rfl

theorem extractLinksLoop_take (resolve : Str → Str → Str) (base : Str)
    (limit : Nat) :
    ∀ (anchors : List AnchorEl) (links : List Str), links.length < limit →
      extractLinksLoop resolve base limit anchors links =
        links ++ (specKeptLinks resolve base anchors).take (limit - links.length) := by
  intro anchors
  induction anchors with
  | nil => intro links _; simp [extractLinksLoop, specKeptLinks]
  | cons a rest ih =>
    intro links hlen
    by_cases hemp : pyStrip (a.href.getD []) = []
    · have hstep : extractLinksLoop resolve base limit (a :: rest) links =
          extractLinksLoop resolve base limit rest links := by
        simp only [extractLinksLoop]
        rw [if_pos (show (decide (pyStrip (a.href.getD []) = []) ||
          skipHref (pyStrip (a.href.getD []))) = true by simp [hemp])]
      have hspec : specKeptLinks resolve base (a :: rest) =
          specKeptLinks resolve base rest := by
        simp [specKeptLinks, List.filterMap_cons, hemp]
      rw [hstep, hspec]
      exact ih links hlen
    · by_cases hskip : skipHref (pyStrip (a.href.getD [])) = true
      · have hstep : extractLinksLoop resolve base limit (a :: rest) links =
            extractLinksLoop resolve base limit rest links := by
          simp only [extractLinksLoop]
          rw [if_pos (show (decide (pyStrip (a.href.getD []) = []) ||
            skipHref (pyStrip (a.href.getD []))) = true by simp [hskip])]
        have hspec : specKeptLinks resolve base (a :: rest) =
            specKeptLinks resolve base rest := by
          simp [specKeptLinks, List.filterMap_cons, hemp, hskip]
        rw [hstep, hspec]
        exact ih links hlen
      · have hskip2 : skipHref (pyStrip (a.href.getD [])) = false := by
          simpa using hskip
        have hcond : (decide (pyStrip (a.href.getD []) = []) ||
            skipHref (pyStrip (a.href.getD []))) = false := by
          simp [hemp, hskip2]
        by_cases hhttp : startsWithL (str "http")
            (resolve base (pyStrip (a.href.getD []))) = true
        · have hspec : specKeptLinks resolve base (a :: rest) =
              resolve base (pyStrip (a.href.getD [])) :: specKeptLinks resolve base rest := by
            simp [specKeptLinks, List.filterMap_cons, hemp, hskip2, hhttp]
          have hstep : extractLinksLoop resolve base limit (a :: rest) links =
              (if limit ≤ (links ++ [resolve base (pyStrip (a.href.getD []))]).length
               then links ++ [resolve base (pyStrip (a.href.getD []))]
               else extractLinksLoop resolve base limit rest
                 (links ++ [resolve base (pyStrip (a.href.getD []))])) := by
            simp only [extractLinksLoop, hcond, Bool.false_eq_true, if_false]
            rw [if_pos hhttp]
          rw [hstep, hspec]
          by_cases hbreak : limit ≤ (links ++ [resolve base (pyStrip (a.href.getD []))]).length
          · have hlim : limit - links.length = 1 := by
              simp only [List.length_append, List.length_cons, List.length_nil] at hbreak
              omega
            rw [if_pos hbreak, hlim, List.take_succ_cons, List.take_zero]
          · have hlt : (links ++ [resolve base (pyStrip (a.href.getD []))]).length < limit := by
              omega
            rw [if_neg hbreak, ih _ hlt]
            have h1 : limit - links.length =
                (limit - (links ++ [resolve base (pyStrip (a.href.getD []))]).length) + 1 := by
              simp only [List.length_append, List.length_cons, List.length_nil]
              omega
            rw [h1, List.take_succ_cons]
            simp
        · have hhttp2 : startsWithL (str "http")
              (resolve base (pyStrip (a.href.getD []))) = false := by
            simpa using hhttp
          have hspec : specKeptLinks resolve base (a :: rest) =
              specKeptLinks resolve base rest := by
            simp [specKeptLinks, List.filterMap_cons, hemp, hskip2, hhttp2]
          have hstep : extractLinksLoop resolve base limit (a :: rest) links =
              (if limit ≤ links.length then links
               else extractLinksLoop resolve base limit rest links) := by
            simp only [extractLinksLoop, hcond, Bool.false_eq_true, if_false]
            rw [if_neg (by simp [hhttp2] : ¬ startsWithL (str "http")
              (resolve base (pyStrip (a.href.getD []))) = true)]
          rw [hstep, hspec, if_neg (by omega : ¬ limit ≤ links.length)]
          exact ih links hlen

theorem specKeptLinks_startsWith (resolve : Str → Str → Str) (base : Str)
    (anchors : List AnchorEl) :
    ∀ x ∈ specKeptLinks resolve base anchors, startsWithL (str "http") x = true := by
  intro x hx
  simp only [specKeptLinks, List.mem_filterMap] at hx
  obtain ⟨a, _, ha⟩ := hx
  by_cases hemp : pyStrip (a.href.getD []) = []
  · simp [hemp] at ha
  · by_cases hskip : skipHref (pyStrip (a.href.getD [])) = true
    · simp [hemp, hskip] at ha
    · have hskip2 : skipHref (pyStrip (a.href.getD [])) = false := by simpa using hskip
      simp only [if_neg hemp, hskip2, Bool.false_eq_true, if_false] at ha
      by_cases hhttp : startsWithL (str "http") (resolve base (pyStrip (a.href.getD []))) = true
      · simp only [hhttp, if_true, Option.some.injEq] at ha
        rw [← ha]; exact hhttp
      · simp only [hhttp, if_false] at ha
        exact absurd ha (by simp)

/-- C5 (amended): for every anchor container, base URL and positive limit,
`_extract_links` equals: resolve-and-filter the anchors per the spec (skip
empty, `javascript:`, `mailto:` and fragment-only hrefs; keep resolved URLs
beginning with `http`), truncate that stream to `limit` raw matches, then
de-duplicate in first-seen order; the output is duplicate-free, a
subsequence of the kept stream, all-HTTP, and at most `limit` long.  (For
`limit = 0` — never used by the source — the loop still emits up to one
link; see the counterexample.) -/
theorem extractLinks_spec (resolve : Str → Str → Str) (anchors : List AnchorEl)
    (base : Str) (limit : Nat) (hl : 1 ≤ limit) :
    extractLinks resolve anchors base limit =
      dedupFirst ((specKeptLinks resolve base anchors).take limit) ∧
    (extractLinks resolve anchors base limit).Nodup ∧
    extractLinks resolve anchors base limit <+ specKeptLinks resolve base anchors ∧
    (∀ x ∈ extractLinks resolve anchors base limit,
      startsWithL (str "http") x = true) ∧
    (extractLinks resolve anchors base limit).length ≤ limit := by
  have hmain : extractLinks resolve anchors base limit =
      dedupFirst ((specKeptLinks resolve base anchors).take limit) := by
    unfold extractLinks
    rw [extractLinksLoop_take resolve base limit anchors [] (by simpa using hl)]
    simp
  refine ⟨hmain, ?_, ?_, ?_, ?_⟩
  · rw [hmain]; exact dedupFirst_nodup _
  · rw [hmain]
    exact (dedupFirst_sublist _).trans (List.take_sublist _ _)
  · intro x hx
    rw [hmain] at hx
    have hx2 : x ∈ specKeptLinks resolve base anchors :=
      ((dedupFirst_sublist _).trans (List.take_sublist _ _)).subset hx
    exact specKeptLinks_startsWith resolve base anchors x hx2
  · rw [hmain]
    calc (dedupFirst ((specKeptLinks resolve base anchors).take limit)).length
        ≤ ((specKeptLinks resolve base anchors).take limit).length :=
          (dedupFirst_sublist _).length_le
      _ ≤ limit := List.length_take_le _ _

theorem extractLinks_spec_witness :
    extractLinks urljoinM
        [⟨some (str "http://x")⟩, ⟨some (str "#frag")⟩, ⟨some (str "http://x")⟩]
        (str "https://b/") 80 =
      dedupFirst ((specKeptLinks urljoinM (str "https://b/")
        [⟨some (str "http://x")⟩, ⟨some (str "#frag")⟩, ⟨some (str "http://x")⟩]).take 80) ∧
    (extractLinks urljoinM
        [⟨some (str "http://x")⟩, ⟨some (str "#frag")⟩, ⟨some (str "http://x")⟩]
        (str "https://b/") 80).Nodup :=
  ⟨(extractLinks_spec urljoinM _ _ 80 (by norm_num)).1,
   (extractLinks_spec urljoinM _ _ 80 (by norm_num)).2.1⟩

/-- C5, counterexample to the claim as stated: with `limit = 0` the loop
still collects one link before the break check runs, so the output exceeds
the limit ("stops collecting once limit raw matches are found" fails at 0). -/
theorem extractLinks_limit_zero_counterexample :
    extractLinks urljoinM [⟨some (str "http://x")⟩] (str "https://b/") 0 =
      [str "http://x"] ∧
    0 < (extractLinks urljoinM [⟨some (str "http://x")⟩] (str "https://b/") 0).length := by
  constructor
  · rfl
  · rw [(by rfl : extractLinks urljoinM [⟨some (str "http://x")⟩] (str "https://b/") 0 =
      [str "http://x"])]
    simp

theorem parseWhAux_titles (resolve : Str → Str → Str) (topN : Nat) :
    ∀ (lis : List WhLi) (acc : List FeedItem),
      (∀ x ∈ acc, x.announcement ≠ []) →
      ∀ x ∈ parseWhAux resolve topN lis acc, x.announcement ≠ [] := by
  intro lis
  induction lis with
  | nil =>
    intro acc hacc x hx
    simp only [parseWhAux] at hx
    exact hacc x hx
  | cons li rest ih =>
    intro acc hacc x hx
    cases hta : li.titleAnchor with
    | none =>
      simp only [parseWhAux, hta] at hx
      exact ih acc hacc x hx
    | some a =>
      simp only [parseWhAux, hta] at hx
      by_cases ht : cleanText a.text = []
      · rw [if_pos ht] at hx
        exact ih acc hacc x hx
      · rw [if_neg ht] at hx
        have hacc2 : ∀ (dt : Str), ∀ z ∈ acc ++
            [(⟨dt, cleanText a.text, resolve whBase (pyStrip a.href)⟩ : FeedItem)],
            z.announcement ≠ [] := by
          intro dt z hz
          rcases List.mem_append.1 hz with h | h
          · exact hacc z h
          · rcases List.mem_singleton.1 h with rfl
            exact ht
        split at hx
        · exact ih acc hacc x hx
        · split at hx
          · exact hacc2 _ x hx
          · exact ih _ (hacc2 _) x hx

theorem parseDlAux_titles (resolve : Str → Str → Str) (base : Str) (topN : Nat) :
    ∀ (lis : List DocLi) (acc : List FeedItem),
      (∀ x ∈ acc, x.announcement ≠ []) →
      ∀ x ∈ parseDlAux resolve base topN lis acc, x.announcement ≠ [] := by
  intro lis
  induction lis with
  | nil =>
    intro acc hacc x hx
    simp only [parseDlAux] at hx
    exact hacc x hx
  | cons li rest ih =>
    intro acc hacc x hx
    cases hta : li.anchor with
    | none =>
      simp only [parseDlAux, hta] at hx
      exact ih acc hacc x hx
    | some a =>
      simp only [parseDlAux, hta] at hx
      by_cases ht : cleanText a.text = []
      · rw [if_pos ht] at hx
        exact ih acc hacc x hx
      · rw [if_neg ht] at hx
        have hacc2 : ∀ (dt : Str), ∀ z ∈ acc ++
            [(⟨dt, cleanText a.text, resolve base (pyStrip a.href)⟩ : FeedItem)],
            z.announcement ≠ [] := by
          intro dt z hz
          rcases List.mem_append.1 hz with h | h
          · exact hacc z h
          · rcases List.mem_singleton.1 h with rfl
            exact ht
        split at hx
        · exact ih acc hacc x hx
        · split at hx
          · exact hacc2 _ x hx
          · exact ih _ (hacc2 _) x hx

theorem fedregItems_titles (docs : List FrDoc) (topN : Nat) :
    ∀ x ∈ fedregItems docs topN, x.announcement ≠ [] := by
  intro x hx
  simp only [fedregItems, List.mem_filterMap] at hx
  obtain ⟨d, _, hd⟩ := hx
  split at hd
  · rcases Option.some.inj hd with rfl
    next h => exact h.1
  · exact absurd hd (by simp)

theorem dictGet_feed_title (d t l : Str) :
    dictGet [(kDate, d), (kTitle, t), (kLink, l)] kTitle = some t := by
  simp only [dictGet]
  rw [if_neg (by decide : ¬ (kDate = kTitle))]
  simp

theorem dictGet_csms_title (n t p l : Str) :
    dictGet [(kCsmsNumber, n), (kTitle, t), (kPublished, p), (kLink, l)] kTitle =
      some t := by
  simp only [dictGet]
  rw [if_neg (by decide : ¬ (kCsmsNumber = kTitle))]
  simp

/-- C1 (amended): the fact-sheets, documents-library and federal-register
branches of `scrape_one` never place a record with an empty `title` into
`announcements`; the CSMS branch emits one record per story that has a
title anchor, whose `title` is the cleaned anchor text — which may be
empty (see the counterexample). -/
theorem adapter_announcement_titles :
    (∀ (y : YakeFn) (sp : SpacyFn) (resolve : Str → Str → Str)
      (lis : List WhLi) (url : Str) r,
      r ∈ (scrapeOneWh y sp resolve lis url).announcements →
        dictGet r kTitle ≠ some []) ∧
    (∀ (y : YakeFn) (sp : SpacyFn) (resolve : Str → Str → Str)
      (dls : List DocLi) (url : Str) r,
      r ∈ (scrapeOneDl y sp resolve dls url).announcements →
        dictGet r kTitle ≠ some []) ∧
    (∀ (y : YakeFn) (sp : SpacyFn) (docs : List FrDoc) (url : Str) r,
      r ∈ (scrapeOneFr y sp docs url).announcements →
        dictGet r kTitle ≠ some []) ∧
    (∀ (y : YakeFn) (sp : SpacyFn) (stories : List CsmsStory) (url : Str) r,
      r ∈ (scrapeOneCsms y sp stories url).announcements →
        ∃ st ∈ stories, ∃ a, st.titleAnchor = some a ∧
          dictGet r kTitle = some (cleanText a.text)) := by
  refine ⟨?_, ?_, ?_, ?_⟩
  · intro y sp resolve lis url r hr
    have hr2 : r ∈ feedAnnouncements (parseWhitehouse resolve lis 5) := hr
    simp only [feedAnnouncements, List.mem_map] at hr2
    obtain ⟨x, hx, rfl⟩ := hr2
    rw [dictGet_feed_title]
    intro h
    exact parseWhAux_titles resolve 5 lis [] (by simp) x hx (Option.some.inj h)
  · intro y sp resolve dls url r hr
    have hr2 : r ∈ feedAnnouncements (parseDocLib resolve dlBase dls 5) := hr
    simp only [feedAnnouncements, List.mem_map] at hr2
    obtain ⟨x, hx, rfl⟩ := hr2
    rw [dictGet_feed_title]
    intro h
    exact parseDlAux_titles resolve dlBase 5 dls [] (by simp) x hx (Option.some.inj h)
  · intro y sp docs url r hr
    have hr2 : r ∈ feedAnnouncements (fedregItems docs 5) := hr
    simp only [feedAnnouncements, List.mem_map] at hr2
    obtain ⟨x, hx, rfl⟩ := hr2
    rw [dictGet_feed_title]
    intro h
    exact fedregItems_titles docs 5 x hx (Option.some.inj h)
  · intro y sp stories url r hr
    have hr2 : r ∈ parseCsms stories := hr
    simp only [parseCsms, List.mem_filterMap] at hr2
    obtain ⟨st, hst, hmk⟩ := hr2
    cases hta : st.titleAnchor with
    | none => rw [hta] at hmk; exact absurd hmk (by simp)
    | some a =>
      rw [hta] at hmk
      refine ⟨st, hst, a, hta, ?_⟩
      rcases Option.some.inj hmk with rfl
      exact dictGet_csms_title _ _ _ _

theorem adapter_announcement_titles_witness :
    dictGet whRec0 kTitle ≠ some [] :=
  adapter_announcement_titles.1 none (fun _ => none) urljoinM whDoc0 (str "u")
    whRec0 (by decide)

/-- C1, counterexample to the claim as stated: on a CSMS widget story whose
title anchor has empty text, `_parse_cbp_csms_announcements` emits a record
with an empty title, and `scrape_one` places it into `announcements`
unchanged. -/
theorem csms_empty_title_counterexample :
    [(kCsmsNumber, ([] : Str)), (kTitle, []), (kPublished, []), (kLink, str "x")] ∈
      (scrapeOneCsms none (fun _ => none) csmsEmptyDoc (str "u")).announcements ∧
    dictGet [(kCsmsNumber, ([] : Str)), (kTitle, []), (kPublished, []),
      (kLink, str "x")] kTitle = some [] := by
  constructor
  · decide
  · decide

theorem noDoubleSpace_cons (a : Char) (l : Str) :
    noDoubleSpace (a :: l) = true ↔
      (noDoubleSpace l = true ∧ ∀ c, l.head? = some c → ¬(a = ' ' ∧ c = ' ')) := by
  cases l with
  | nil => simp [noDoubleSpace]
  | cons b rest =>
    simp only [noDoubleSpace, Bool.and_eq_true, List.head?_cons, Option.some.injEq]
    constructor
    · rintro ⟨h1, h2⟩
      refine ⟨h2, ?_⟩
      rintro c rfl ⟨ha, hc⟩
      simp [ha, hc] at h1
    · rintro ⟨h1, h2⟩
      refine ⟨?_, h1⟩
      have := h2 b rfl
      by_cases ha : a = ' '
      · by_cases hb : b = ' '
        · exact absurd ⟨ha, hb⟩ this
        · simp [ha, hb]
      · simp [ha]

theorem collapseAux_chars :
    ∀ (l : Str) (b : Bool) (c : Char), c ∈ collapseAux b l →
      (c ∈ l ∧ isPySpace c = false) ∨ c = ' ' := by
  intro l
  induction l with
  | nil => intro b c hc; simp [collapseAux] at hc
  | cons d ds ih =>
    intro b c hc
    by_cases hd : isPySpace d = true
    · simp only [collapseAux, hd, if_true] at hc
      cases b with
      | true =>
        rcases ih true c hc with ⟨h1, h2⟩ | h
        · exact Or.inl ⟨List.mem_cons_of_mem d h1, h2⟩
        · exact Or.inr h
      | false =>
        rcases List.mem_cons.1 hc with rfl | hc2
        · exact Or.inr rfl
        · rcases ih true c hc2 with ⟨h1, h2⟩ | h
          · exact Or.inl ⟨List.mem_cons_of_mem d h1, h2⟩
          · exact Or.inr h
    · have hd2 : isPySpace d = false := by simpa using hd
      simp only [collapseAux, hd2, Bool.false_eq_true, if_false] at hc
      rcases List.mem_cons.1 hc with rfl | hc2
      · exact Or.inl ⟨List.mem_cons_self _ _, hd2⟩
      · rcases ih false c hc2 with ⟨h1, h2⟩ | h
        · exact Or.inl ⟨List.mem_cons_of_mem d h1, h2⟩
        · exact Or.inr h

theorem collapseAux_noWs (l : Str) (b : Bool) :
    noWsExceptSpace (collapseAux b l) = true := by
  simp only [noWsExceptSpace, List.all_eq_true]
  intro c hc
  rcases collapseAux_chars l b c hc with ⟨_, h2⟩ | rfl
  · simp [h2]
  · simp

theorem collapseAux_noDouble :
    ∀ l : Str,
      noDoubleSpace (collapseAux false l) = true ∧
      noDoubleSpace (collapseAux true l) = true ∧
      (∀ c, (collapseAux true l).head? = some c → c ≠ ' ') := by
  intro l
  induction l with
  | nil => exact ⟨rfl, rfl, by simp [collapseAux]⟩
  | cons d ds ih =>
    by_cases hd : isPySpace d = true
    · have e1 : collapseAux false (d :: ds) = ' ' :: collapseAux true ds := by
        simp [collapseAux, hd]
      have e2 : collapseAux true (d :: ds) = collapseAux true ds := by
        simp [collapseAux, hd]
      refine ⟨?_, e2 ▸ ih.2.1, e2 ▸ ih.2.2⟩
      rw [e1, noDoubleSpace_cons]
      refine ⟨ih.2.1, ?_⟩
      intro c hc hand
      exact ih.2.2 c hc hand.2
    · have hd2 : isPySpace d = false := by simpa using hd
      have hdsp : d ≠ ' ' := by
        intro h; rw [h] at hd2; simp [isPySpace] at hd2
      have e1 : ∀ b, collapseAux b (d :: ds) = d :: collapseAux false ds := by
        intro b; simp [collapseAux, hd2]
      have hnd : noDoubleSpace (d :: collapseAux false ds) = true := by
        rw [noDoubleSpace_cons]
        exact ⟨ih.1, fun c _ hand => hdsp hand.1⟩
      refine ⟨e1 false ▸ hnd, e1 true ▸ hnd, ?_⟩
      rw [e1 true]
      intro c hc
      rcases Option.some.inj hc with rfl
      exact hdsp

theorem collapseAux_id :
    ∀ l : Str, noWsExceptSpace l = true → noDoubleSpace l = true →
      (collapseAux false l = l ∧
        ((∀ c, l.head? = some c → c ≠ ' ') → collapseAux true l = l)) := by
  intro l
  induction l with
  | nil => exact fun _ _ => ⟨rfl, fun _ => rfl⟩
  | cons d ds ih =>
    intro hws hnd
    have hws2 : noWsExceptSpace ds = true := by
      simp only [noWsExceptSpace, List.all_cons, Bool.and_eq_true] at hws
      exact hws.2
    have hwd : isPySpace d = true → d = ' ' := by
      simp only [noWsExceptSpace, List.all_cons, Bool.and_eq_true] at hws
      intro h
      have h3 := hws.1
      rw [h] at h3
      simpa using h3
    have hnd2 := (noDoubleSpace_cons d ds).1 hnd
    by_cases hd : d = ' '
    · have hsp : isPySpace d = true := by rw [hd]; rfl
      have e1 : collapseAux false (d :: ds) = ' ' :: collapseAux true ds := by
        rw [hd] at hsp ⊢
        simp [collapseAux, hsp]
      have htail : collapseAux true ds = ds := by
        refine (ih hws2 hnd2.1).2 ?_
        intro c hc
        intro hceq
        exact hnd2.2 c hc ⟨hd, hceq⟩
      constructor
      · rw [e1, htail, hd]
      · intro hh
        exact absurd hd (hh d rfl)
    · have hsp : isPySpace d = false := by
        cases h : isPySpace d
        · rfl
        · exact absurd (hwd h) hd
      have e1 : ∀ b, collapseAux b (d :: ds) = d :: collapseAux false ds := by
        intro b; simp [collapseAux, hsp]
      have htail : collapseAux false ds = ds := (ih hws2 hnd2.1).1
      exact ⟨by rw [e1 false, htail], fun _ => by rw [e1 true, htail]⟩

theorem dropWhile_head_not (p : Char → Bool) :
    ∀ (l : Str) (c : Char), (l.dropWhile p).head? = some c → p c = false := by
  intro l
  induction l with
  | nil => intro c hc; simp [List.dropWhile] at hc
  | cons d ds ih =>
    intro c hc
    by_cases hd : p d = true
    · rw [List.dropWhile_cons_of_pos hd] at hc
      exact ih c hc
    · have hd2 : p d = false := by simpa using hd
      rw [List.dropWhile_cons_of_neg (by simp [hd2])] at hc
      rcases Option.some.inj hc with rfl
      exact hd2

theorem dropWhile_eq_self_of_head (p : Char → Bool) (l : Str)
    (h : ∀ c, l.head? = some c → p c = false) : l.dropWhile p = l := by
  cases l with
  | nil => rfl
  | cons d ds =>
    have := h d rfl
    rw [List.dropWhile_cons_of_neg (by simp [this])]

theorem pyStrip_eq_self {l : Str}
    (h1 : ∀ c, l.head? = some c → isPySpace c = false)
    (h2 : ∀ c, l.getLast? = some c → isPySpace c = false) : pyStrip l = l := by
  unfold pyStrip
  rw [dropWhile_eq_self_of_head _ _ h1]
  rw [dropWhile_eq_self_of_head _ _ (fun c hc => h2 c (by rwa [List.head?_reverse] at hc))]
  exact List.reverse_reverse l

theorem pyStrip_decomp (l : Str) :
    ∃ a b, l = a ++ pyStrip l ++ b := by
  obtain ⟨a, ha⟩ : ∃ a, a ++ l.dropWhile isPySpace = l :=
    ⟨l.takeWhile isPySpace, List.takeWhile_append_dropWhile isPySpace l⟩
  obtain ⟨t, ht⟩ : ∃ t, t ++ (l.dropWhile isPySpace).reverse.dropWhile isPySpace =
      (l.dropWhile isPySpace).reverse :=
    ⟨(l.dropWhile isPySpace).reverse.takeWhile isPySpace,
      List.takeWhile_append_dropWhile isPySpace _⟩
  refine ⟨a, t.reverse, ?_⟩
  have hw : l.dropWhile isPySpace = pyStrip l ++ t.reverse := by
    have := congrArg List.reverse ht
    simpa [pyStrip, List.reverse_append] using this.symm
  conv_lhs => rw [← ha]
  rw [hw, ← List.append_assoc]

theorem pyStrip_subset (l : Str) : ∀ c, c ∈ pyStrip l → c ∈ l := by
  intro c hc
  obtain ⟨a, b, hab⟩ := pyStrip_decomp l
  rw [hab]
  simp [hc]

theorem pyStrip_head (l : Str) :
    ∀ c, (pyStrip l).head? = some c → isPySpace c = false := by
  intro c hc
  have hsuf : ∃ t, t ++ (l.dropWhile isPySpace).reverse.dropWhile isPySpace =
      (l.dropWhile isPySpace).reverse :=
    ⟨(l.dropWhile isPySpace).reverse.takeWhile isPySpace,
      List.takeWhile_append_dropWhile isPySpace _⟩
  obtain ⟨t, ht⟩ := hsuf
  have hw : l.dropWhile isPySpace = pyStrip l ++ t.reverse := by
    have := congrArg List.reverse ht
    simpa [pyStrip, List.reverse_append] using this.symm
  have hL : (l.dropWhile isPySpace).head? = some c := by
    rw [hw]
    cases hps : pyStrip l with
    | nil => rw [hps] at hc; simp at hc
    | cons x xs =>
      rw [hps] at hc
      rcases Option.some.inj hc with rfl
      rfl
  exact dropWhile_head_not isPySpace l c hL

theorem pyStrip_last (l : Str) :
    ∀ c, (pyStrip l).getLast? = some c → isPySpace c = false := by
  intro c hc
  have h2 : ((l.dropWhile isPySpace).reverse.dropWhile isPySpace).head? = some c := by
    rw [← List.getLast?_reverse]
    exact hc
  exact dropWhile_head_not isPySpace _ c h2

theorem pyStrip_idem (l : Str) : pyStrip (pyStrip l) = pyStrip l :=
  pyStrip_eq_self (pyStrip_head l) (pyStrip_last l)

theorem noDoubleSpace_of_append_right :
    ∀ t q : Str, noDoubleSpace (t ++ q) = true → noDoubleSpace t = true := by
  intro t
  induction t with
  | nil => intro q _; rfl
  | cons a t2 ih =>
    intro q h
    rw [List.cons_append, noDoubleSpace_cons] at h
    rw [noDoubleSpace_cons]
    refine ⟨ih q h.1, ?_⟩
    intro c hc
    apply h.2
    cases t2 with
    | nil => simp at hc
    | cons x xs =>
      rcases Option.some.inj hc with rfl
      rfl

theorem noDoubleSpace_of_append_left :
    ∀ a t : Str, noDoubleSpace (a ++ t) = true → noDoubleSpace t = true := by
  intro a
  induction a with
  | nil => intro t h; simpa using h
  | cons x a2 ih =>
    intro t h
    rw [List.cons_append, noDoubleSpace_cons] at h
    exact ih t h.1

theorem noWs_of_subset {l m : Str} (hsub : ∀ c, c ∈ l → c ∈ m)
    (h : noWsExceptSpace m = true) : noWsExceptSpace l = true := by
  simp only [noWsExceptSpace, List.all_eq_true] at h ⊢
  exact fun c hc => h c (hsub c hc)

theorem pyStrip_noDouble {l : Str} (h : noDoubleSpace l = true) :
    noDoubleSpace (pyStrip l) = true := by
  obtain ⟨a, b, hab⟩ := pyStrip_decomp l
  rw [hab] at h
  exact noDoubleSpace_of_append_right _ b (noDoubleSpace_of_append_left a _ (by rwa [List.append_assoc] at h))

theorem cleanText_chars (s : Str) :
    ∀ c ∈ cleanText s, c ∈ s ∨ c = ' ' := by
  intro c hc
  have hc2 : c ∈ collapseAux false (s.map (fun c => if c = ' ' then ' ' else c)) :=
    pyStrip_subset _ c hc
  rcases collapseAux_chars _ false c hc2 with ⟨h1, _⟩ | h
  · simp only [List.mem_map] at h1
    obtain ⟨d, hd, hfd⟩ := h1
    by_cases hnb : d = ' '
    · rw [hnb] at hfd; simp at hfd; exact Or.inr hfd.symm
    · rw [if_neg hnb] at hfd; exact Or.inl (hfd ▸ hd)
  · exact Or.inr h

theorem cleanText_idem (s : Str) : cleanText (cleanText s) = cleanText s := by
  have hws : noWsExceptSpace (cleanText s) = true :=
    noWs_of_subset (pyStrip_subset _) (collapseAux_noWs _ false)
  have hnd : noDoubleSpace (cleanText s) = true :=
    pyStrip_noDouble (collapseAux_noDouble _).1
  have hmapgen : ∀ l2 : Str, (∀ c ∈ l2, (if c = '\u00A0' then ' ' else c) = c) →
      l2.map (fun c => if c = '\u00A0' then ' ' else c) = l2 := by
    intro l2 h
    induction l2 with
    | nil => rfl
    | cons x xs ih =>
      simp only [List.map_cons]
      rw [h x (by simp), ih (fun c hc => h c (by simp [hc]))]
  have hmap : (cleanText s).map (fun c => if c = '\u00A0' then ' ' else c) =
      cleanText s := by
    apply hmapgen
    intro c hc
    have hne : c ≠ '\u00A0' := by
      intro heq
      simp only [noWsExceptSpace, List.all_eq_true] at hws
      have h3 := hws c hc
      rw [heq] at h3
      simp [isPySpace] at h3
    rw [if_neg hne]
  show pyStrip (collapseAux false ((cleanText s).map _)) = cleanText s
  rw [hmap, (collapseAux_id (cleanText s) hws hnd).1]
  exact pyStrip_idem _

theorem fixMojibake_of_not_mem {s : Str} (h : '�' ∉ s) : fixMojibake s = s := by
  unfold fixMojibake
  by_cases h1 : s = []
  · rw [if_pos h1]
  · rw [if_neg h1, if_neg h]

/-- C7 (amended): the normalizer `_fix_mojibake o _clean_text` is total and
idempotent on every input that does not contain the Unicode replacement
character U+FFFD; when U+FFFD is present the mojibake repair can change the
string on a second pass (see the counterexample). -/
theorem normalizeText_idempotent_no_replacement (s : Str) (h : '�' ∉ s) :
    normalizeText (normalizeText s) = normalizeText s := by
  have h1 : '�' ∉ cleanText s := by
    intro hc
    rcases cleanText_chars s _ hc with hc2 | hc2
    · exact h hc2
    · exact absurd hc2 (by decide)
  have e1 : normalizeText s = cleanText s := by
    unfold normalizeText
    rw [fixMojibake_of_not_mem h1]
  rw [e1]
  unfold normalizeText
  have h2 : '�' ∉ cleanText (cleanText s) := by
    rw [cleanText_idem]; exact h1
  rw [fixMojibake_of_not_mem h2, cleanText_idem]

theorem normalizeText_idempotent_witness :
    normalizeText (normalizeText (str "a  b")) = normalizeText (str "a  b") :=
  normalizeText_idempotent_no_replacement (str "a  b") (by decide)

/-- C7, counterexample to the claim as stated: on `"�ï¿½"` one pass of the
normalizer yields `"�"` (the cp1252/UTF-8 round trip turns `ï¿½` into the
replacement character and drops the original one), and a second pass yields
`""` — the normalizer is not idempotent. -/
theorem normalizeText_not_idempotent_counterexample :
    normalizeText (normalizeText (str "�ï¿½")) ≠ normalizeText (str "�ï¿½") ∧
    normalizeText (str "�ï¿½") = str "�" ∧
    normalizeText (normalizeText (str "�ï¿½")) = [] := by
  refine ⟨?_, by decide, by decide⟩
  decide

theorem head?_append_left {x : Str} (r : Str) (h : x ≠ []) :
    (x ++ r).head? = x.head? := by
  cases x with
  | nil => exact absurd rfl h
  | cons a y => rfl

theorem getLast?_append_right (x : Str) {r : Str} (h : r ≠ []) :
    (x ++ r).getLast? = r.getLast? := by
  rw [← List.head?_reverse, ← List.head?_reverse (l := r), List.reverse_append]
  exact head?_append_left x.reverse (by simpa using h)

theorem sublist_of_idx_pairs {α : Type} :
    ∀ (L : List α) (ps : List (Nat × α)),
      (∀ p ∈ ps, L.get? p.1 = some p.2) →
      List.Pairwise (fun a b => a.1 < b.1) ps →
      List.Sublist (ps.map Prod.snd) L := by
  intro L
  induction L with
  | nil =>
    intro ps h _
    cases ps with
    | nil => simp
    | cons p ps2 =>
      have := h p (List.mem_cons_self p ps2)
      simp at this
  | cons x L2 ih =>
    intro ps hget hpw
    have shift : ∀ qs : List (Nat × α),
        (∀ q ∈ qs, (x :: L2).get? q.1 = some q.2) →
        (∀ q ∈ qs, 0 < q.1) →
        List.Pairwise (fun a b => a.1 < b.1) qs →
        List.Sublist (qs.map Prod.snd) L2 := by
      intro qs hg hpos hp
      have hmm : qs.map Prod.snd = (qs.map (fun q => (q.1 - 1, q.2))).map Prod.snd := by
        simp [List.map_map]
      rw [hmm]
      apply ih
      · intro q hq
        simp only [List.mem_map] at hq
        obtain ⟨q0, hq0, rfl⟩ := hq
        have hg0 := hg q0 hq0
        have h1 := hpos q0 hq0
        obtain ⟨n, hn⟩ : ∃ n, q0.1 = n + 1 := ⟨q0.1 - 1, by omega⟩
        rw [hn] at hg0
        simpa [hn] using hg0
      · refine (List.pairwise_map).2 ?_
        refine List.Pairwise.imp_of_mem ?_ hp
        intro a b ha hb hab
        have := hpos a ha
        have := hpos b hb
        simp only
        omega
    cases ps with
    | nil => simp
    | cons p ps2 =>
      have hpwtail := (List.pairwise_cons.1 hpw).2
      have hphead := (List.pairwise_cons.1 hpw).1
      by_cases hp0 : p.1 = 0
      · have hx : p.2 = x := by
          have h5 := hget p (List.mem_cons_self p ps2)
          rw [hp0] at h5
          exact (by simpa using h5 : x = p.2).symm
        have hsub : List.Sublist (ps2.map Prod.snd) L2 := by
          apply shift ps2
          · intro q hq; exact hget q (List.mem_cons_of_mem p hq)
          · intro q hq; have := hphead q hq; omega
          · exact hpwtail
        simpa [hx] using List.Sublist.cons₂ x hsub
      · have hsub : List.Sublist ((p :: ps2).map Prod.snd) L2 := by
          apply shift (p :: ps2)
          · exact hget
          · intro q hq
            rcases List.mem_cons.1 hq with rfl | hq2
            · omega
            · have := hphead q hq2; omega
          · exact hpw
        exact List.Sublist.cons x hsub

theorem joinSpaces_ne_nil (y : Str) (xs : List Str) (h : y ≠ []) :
    joinSpaces (y :: xs) ≠ [] := by
  cases xs with
  | nil => simpa [joinSpaces] using h
  | cons z zs =>
    simp only [joinSpaces]
    intro hc
    rcases List.append_eq_nil.1 hc with ⟨h1, _⟩
    exact h h1

theorem joinSpaces_head? (l : List Str) (hne : ∀ e ∈ l, e ≠ []) :
    ∀ c, (joinSpaces l).head? = some c → ∃ e ∈ l, e.head? = some c := by
  cases l with
  | nil => intro c hc; simp [joinSpaces] at hc
  | cons x xs =>
    intro c hc
    refine ⟨x, List.mem_cons_self x xs, ?_⟩
    cases xs with
    | nil => simpa [joinSpaces] using hc
    | cons y ys =>
      rw [show joinSpaces (x :: y :: ys) = x ++ ' ' :: joinSpaces (y :: ys) from rfl,
        head?_append_left _ (hne x (List.mem_cons_self x _))] at hc
      exact hc

theorem joinSpaces_getLast? :
    ∀ (l : List Str), (∀ e ∈ l, e ≠ []) →
      ∀ c, (joinSpaces l).getLast? = some c → ∃ e ∈ l, e.getLast? = some c := by
  intro l
  induction l with
  | nil => intro _ c hc; simp [joinSpaces] at hc
  | cons x xs ih =>
    intro hne c hc
    cases xs with
    | nil =>
      exact ⟨x, List.mem_cons_self x [], by simpa [joinSpaces] using hc⟩
    | cons y ys =>
      rw [show joinSpaces (x :: y :: ys) = x ++ ' ' :: joinSpaces (y :: ys) from rfl,
        getLast?_append_right x (by simp)] at hc
      have hyne : joinSpaces (y :: ys) ≠ [] :=
        joinSpaces_ne_nil y ys (hne y (by simp))
      rw [show (' ' :: joinSpaces (y :: ys)).getLast? = (joinSpaces (y :: ys)).getLast? from ?_] at hc
      · obtain ⟨e, he, he2⟩ := ih (fun e he => hne e (List.mem_cons_of_mem x he)) c hc
        exact ⟨e, List.mem_cons_of_mem x he, he2⟩
      · cases hj : joinSpaces (y :: ys) with
        | nil => exact absurd hj hyne
        | cons a t => rw [List.getLast?_cons_cons]

theorem strip_fixed_head {x : Str} (h : pyStrip x = x) :
    ∀ c, x.head? = some c → isPySpace c = false := by
  intro c hc
  exact pyStrip_head x c (by rwa [h])

theorem strip_fixed_last {x : Str} (h : pyStrip x = x) :
    ∀ c, x.getLast? = some c → isPySpace c = false := by
  intro c hc
  exact pyStrip_last x c (by rwa [h])

theorem joinSpaces_strip_fixed (l : List Str)
    (h : ∀ e ∈ l, e ≠ [] ∧ pyStrip e = e) :
    pyStrip (joinSpaces l) = joinSpaces l := by
  apply pyStrip_eq_self
  · intro c hc
    obtain ⟨e, he, he2⟩ := joinSpaces_head? l (fun e he => (h e he).1) c hc
    exact strip_fixed_head (h e he).2 c he2
  · intro c hc
    obtain ⟨e, he, he2⟩ := joinSpaces_getLast? l (fun e he => (h e he).1) c hc
    exact strip_fixed_last (h e he).2 c he2

theorem splitSentences_mem {text s : Str} (hs : s ∈ splitSentences text) :
    s ≠ [] ∧ pyStrip s = s := by
  simp only [splitSentences] at hs
  split at hs
  · simp at hs
  · simp only [List.mem_map, List.mem_filter, decide_eq_true_eq] at hs
    obtain ⟨p, ⟨_, _, hp2⟩, rfl⟩ := hs
    exact ⟨hp2, pyStrip_idem p⟩

theorem picksOf_get? (ks : List Str) (sents : List Str) (m : Nat) :
    ∀ p ∈ picksOf ks sents m, (sents.take 250).get? p.2.1 = some p.2.2 := by
  intro p hp
  have h1 : p ∈ (List.insertionSort (fun a b => b.1 ≤ a.1) (scoredOf ks sents)).take m :=
    (List.perm_insertionSort _ _).mem_iff.1 hp
  have h2 : p ∈ List.insertionSort (fun a b => b.1 ≤ a.1) (scoredOf ks sents) :=
    List.take_subset _ _ h1
  have h3 : p ∈ scoredOf ks sents := (List.perm_insertionSort _ _).mem_iff.1 h2
  simp only [scoredOf, List.mem_map] at h3
  obtain ⟨q, hq, rfl⟩ := h3
  have hq2 : (q.1, q.2) ∈ (sents.take 250).enum := by
    simpa using hq
  simpa using List.mk_mem_enum_iff_getElem?.1 hq2

theorem picksOf_pairwise (ks : List Str) (sents : List Str) (m : Nat) :
    List.Pairwise (fun a b : ℚ × ℕ × Str => a.2.1 < b.2.1) (picksOf ks sents m) := by
  haveI : IsTotal (ℚ × ℕ × Str) (fun a b => a.2.1 ≤ b.2.1) :=
    ⟨fun a b => Nat.le_total _ _⟩
  haveI : IsTrans (ℚ × ℕ × Str) (fun a b => a.2.1 ≤ b.2.1) :=
    ⟨fun _ _ _ h1 h2 => le_trans h1 h2⟩
  have hsorted : List.Sorted (fun a b : ℚ × ℕ × Str => a.2.1 ≤ b.2.1)
      (picksOf ks sents m) := List.sorted_insertionSort _ _
  have hnodup : ((picksOf ks sents m).map (fun p => p.2.1)).Nodup := by
    have e1 : (scoredOf ks sents).map (fun p : ℚ × ℕ × Str => p.2.1) =
        ((sents.take 250).enum).map Prod.fst := by
      simp only [scoredOf, List.map_map]
      rfl
    have h0 : ((scoredOf ks sents).map (fun p : ℚ × ℕ × Str => p.2.1)).Nodup := by
      rw [e1]
      exact List.nodup_enum_map_fst _
    have h1 : ((List.insertionSort (fun a b => b.1 ≤ a.1)
        (scoredOf ks sents)).map (fun p : ℚ × ℕ × Str => p.2.1)).Nodup :=
      (((List.perm_insertionSort _ _).map _).nodup_iff).2 h0
    have h2 : (((List.insertionSort (fun a b => b.1 ≤ a.1)
        (scoredOf ks sents)).take m).map (fun p : ℚ × ℕ × Str => p.2.1)).Nodup :=
      (List.Sublist.map _ (List.take_sublist m _)).nodup h1
    exact (((List.perm_insertionSort _ _).map _).nodup_iff).2 h2
  have hne : List.Pairwise (fun a b : ℚ × ℕ × Str => a.2.1 ≠ b.2.1)
      (picksOf ks sents m) := (List.pairwise_map).1 hnodup
  refine (List.Pairwise.and hsorted hne).imp ?_
  rintro a b ⟨h1, h2⟩
  omega

/-- C8: summarizing empty text yields an empty summary and no key points;
for every input, `key_points` is a subsequence of the sentence list of the
source text (same relative order), and `summary` equals the first 3 key
points joined by single spaces. -/
theorem extractiveSummary_spec :
    (∀ (kws : List Str) (m : Nat), extractiveSummary [] kws m = ([], [])) ∧
    (∀ (text : Str) (kws : List Str) (m : Nat),
      List.Sublist (extractiveSummary text kws m).2 (splitSentences text) ∧
      (extractiveSummary text kws m).1 =
        joinSpaces ((extractiveSummary text kws m).2.take 3)) := by
  constructor
  · intro kws m; rfl
  · intro text kws m
    by_cases hse : splitSentences text = []
    · constructor
      · simp [extractiveSummary, hse]
      · simp [extractiveSummary, hse, joinSpaces]
    · have he : extractiveSummary text kws m =
          (pyStrip (joinSpaces (((picksOf (dedupFirst (kws.map pyLower))
              (splitSentences text) m).map (fun p => p.2.2)).take 3)),
            (picksOf (dedupFirst (kws.map pyLower))
              (splitSentences text) m).map (fun p => p.2.2)) := by
        simp [extractiveSummary, hse]
      have hsub : List.Sublist ((picksOf (dedupFirst (kws.map pyLower))
          (splitSentences text) m).map (fun p => p.2.2)) (splitSentences text) := by
        have hmm : (picksOf (dedupFirst (kws.map pyLower))
            (splitSentences text) m).map (fun p => p.2.2) =
            ((picksOf (dedupFirst (kws.map pyLower))
              (splitSentences text) m).map (fun p => (p.2.1, p.2.2))).map Prod.snd := by
          simp [List.map_map]
        rw [hmm]
        refine (sublist_of_idx_pairs ((splitSentences text).take 250) _ ?_ ?_).trans
          (List.take_sublist _ _)
        · intro q hq
          simp only [List.mem_map] at hq
          obtain ⟨p, hp, rfl⟩ := hq
          exact picksOf_get? _ _ m p hp
        · refine (List.pairwise_map).2 ?_
          exact picksOf_pairwise _ _ m
      constructor
      · rw [he]
        exact hsub
      · rw [he]
        apply joinSpaces_strip_fixed
        intro e he2
        have he3 : e ∈ (picksOf (dedupFirst (kws.map pyLower))
            (splitSentences text) m).map (fun p => p.2.2) :=
          List.take_subset _ _ he2
        exact splitSentences_mem (hsub.subset he3)
